import Mathlib

/-!
# Verification of the COBS (Consistent Overhead Byte Stuffing) transform

Shallow embedding of `src/COBS.h` (class `COBS`: `encode`, `decode`,
`getEncodedBufferSize`) and proofs of the specification claims.

Modelling conventions:
* Bytes are `Nat` values; inputs that are byte buffers come with explicit
  `< 256` bounds where a claim needs them.
* `uint16_t` index arithmetic is embedded as `Nat` with an explicit `% 65536`
  wherever the C value can actually reach 65536 (the encoder's `write_index`
  and the derived `code_index`).  In `decode` every cursor is bounded by the
  `size` argument (itself a `uint16_t`, hence `< 65536` on every real call),
  so its arithmetic never overflows and is embedded as plain `Nat`.
* `uint8_t code` in the encoder is embedded with an explicit `% 256` on the
  increment, exactly as the C `code++` behaves.
* Writes through `destination[i] = v` are recorded in an explicit log of
  `(index, value)` pairs (in program order); the final contents of the
  destination buffer are obtained by replaying the log over an arbitrary
  initial buffer with `applyLog`.  Reads of `source[i]` in `decode` are
  recorded in a read log, so that claims about out-of-bounds accesses can be
  stated.
-/

/-- Replay a write log (list of `(index, value)` pairs, in program order)
over an initial buffer contents `d`. -/
def applyLog (d : Nat → Nat) (log : List (Nat × Nat)) : Nat → Nat :=
  log.foldl (fun f e => Function.update f e.1 e.2) d

/-- The sequence of writes that stores the bytes of `l` at consecutive
indices starting at `W`. -/
def dataWrites (W : Nat) : List Nat → List (Nat × Nat)
  | [] => []
  | b :: rest => (W, b) :: dataWrites (W + 1) rest

namespace COBS

/-- The encoder's loop state: `write_index`, `code_index`, `code`
(all as in `COBS::encode`), plus the log of destination writes made so far. -/
structure EncState where
  wi : Nat
  ci : Nat
  code : Nat
  log : List (Nat × Nat)
deriving DecidableEq, Repr

/-- One iteration of the (identical) per-segment loop body of `COBS::encode`,
processing the source byte `b`.  Faithful to `src/COBS.h` lines 46-67:
on a zero byte the current `code` is written at `code_index` and a fresh code
slot is reserved; on a non-zero byte the byte is copied and `code` is
incremented, flushing when it reaches `0xFF`. -/
def encByte (st : EncState) (b : Nat) : EncState :=
  if b = 0 then
    ⟨(st.wi + 1) % 65536, st.wi, 1, st.log ++ [(st.ci, st.code)]⟩
  else
    let log1 := st.log ++ [(st.wi, b)]
    let w1 := (st.wi + 1) % 65536
    let c1 := (st.code + 1) % 256
    if c1 = 255 then
      ⟨(w1 + 1) % 65536, w1, 1, log1 ++ [(st.ci, c1)]⟩
    else
      ⟨w1, st.ci, c1, log1⟩

/-- Initial encoder state (`read_index = 0`, `write_index = 1`,
`code_index = 0`, `code = 1`). -/
def encInit : EncState := ⟨1, 0, 1, []⟩

/-- `COBS::encode`: the three segment loops run the same body over header,
body and trailer in order, sharing `write_index` / `code_index` / `code`;
afterwards the final `code` is written at `code_index` and `write_index` is
returned.  Result: `(returned length, destination write log)`. -/
def encode (sourceHeader sourceBody sourceTrailer : List Nat) :
    Nat × List (Nat × Nat) :=
  let s1 := sourceHeader.foldl encByte encInit
  let s2 := sourceBody.foldl encByte s1
  let s3 := sourceTrailer.foldl encByte s2
  (s3.wi, s3.log ++ [(s3.ci, s3.code)])

/-- `COBS::getEncodedBufferSize`: `total` is a `uint16_t`, so the sum of the
three sizes is reduced mod 2^16, and so is the returned value. -/
def getEncodedBufferSize (headerSize sourceSize trailerSize : Nat) : Nat :=
  let total := (headerSize + sourceSize + trailerSize) % 65536
  (total + total / 254 + 1) % 65536

/-- Result of `COBS::decode`: the returned value, the log of destination
writes, and the log of source indices read. -/
structure DecResult where
  ret : Nat
  log : List (Nat × Nat)
  reads : List Nat
deriving DecidableEq, Repr

/-- The loop of `COBS::decode` (lines 140-160 of `src/COBS.h`), from read
cursor `ri` and write cursor `wi`.  Each iteration reads the code byte,
performs the `read_index + code > size && code != 1` validation (returning 0
on failure), copies `code - 1` bytes verbatim, and reinserts a zero byte
unless the run was a forced `0xFF` flush or the input is exhausted.
All cursors stay `≤ size`, so no `uint16_t` wrap can occur on a real call. -/
def decodeAux (source : List Nat) (size ri wi : Nat)
    (log : List (Nat × Nat)) (reads : List Nat) : DecResult :=
  if _h : ri < size then
    let code := source.getD ri 0
    let reads1 := reads ++ [ri]
    if ri + code > size ∧ code ≠ 1 then
      ⟨0, log, reads1⟩
    else
      let copyLog := (List.range (code - 1)).map
        fun j => (wi + j, source.getD (ri + 1 + j) 0)
      let copyReads := (List.range (code - 1)).map fun j => ri + 1 + j
      let ri2 := ri + 1 + (code - 1)
      let wi2 := wi + (code - 1)
      if code ≠ 255 ∧ ri2 ≠ size then
        decodeAux source size ri2 (wi2 + 1)
          (log ++ copyLog ++ [(wi2, 0)]) (reads1 ++ copyReads)
      else
        decodeAux source size ri2 wi2 (log ++ copyLog) (reads1 ++ copyReads)
  else
    ⟨wi, log, reads⟩
termination_by size - ri
decreasing_by
  · omega
  · omega

/-- `COBS::decode` run from the initial cursors. -/
def decode (source : List Nat) (size : Nat) : DecResult :=
  decodeAux source size 0 0 [] []

/-- Fuel-indexed variant of the `COBS::decode` loop: executes at most `fuel`
iterations of the loop, then stops.  Used to state that the loop terminates
within `size` iterations (claim C10) and to evaluate `decode` on concrete
inputs. -/
def decodeFuelAux : Nat → List Nat → Nat → Nat → Nat →
    List (Nat × Nat) → List Nat → DecResult
  | 0, _, _, _, wi, log, reads => ⟨wi, log, reads⟩
  | fuel + 1, source, size, ri, wi, log, reads =>
    if ri < size then
      let code := source.getD ri 0
      let reads1 := reads ++ [ri]
      if ri + code > size ∧ code ≠ 1 then
        ⟨0, log, reads1⟩
      else
        let copyLog := (List.range (code - 1)).map
          fun j => (wi + j, source.getD (ri + 1 + j) 0)
        let copyReads := (List.range (code - 1)).map fun j => ri + 1 + j
        let ri2 := ri + 1 + (code - 1)
        let wi2 := wi + (code - 1)
        if code ≠ 255 ∧ ri2 ≠ size then
          decodeFuelAux fuel source size ri2 (wi2 + 1)
            (log ++ copyLog ++ [(wi2, 0)]) (reads1 ++ copyReads)
        else
          decodeFuelAux fuel source size ri2 wi2 (log ++ copyLog)
            (reads1 ++ copyReads)
    else
      ⟨wi, log, reads⟩

/-- The control skeleton of the `COBS::decode` loop: scans the input exactly
as the loop does and reports whether it ever hits the
`read_index + code > size && code != 1` validation failure. -/
def scanFails (source : List Nat) (size ri : Nat) : Bool :=
  if _h : ri < size then
    let code := source.getD ri 0
    if ri + code > size ∧ code ≠ 1 then
      true
    else
      scanFails source size (ri + 1 + (code - 1))
  else
    false
termination_by size - ri
decreasing_by omega

end COBS

/-! ## Functional reference form of the encoder

`encF` produces the encoded byte sequence of a single logical input stream
directly as a list, group by group; `encLogF` produces the corresponding
write log (data bytes of a group first, then the group's code byte, exactly
the order `COBS::encode` emits its writes in).  Both are proof devices: the
theorems below relate the imperative embedding `COBS.encode` to them. -/

/-- The leading run of an input: up to `n` leading non-zero bytes. -/
def runTake : Nat → List Nat → List Nat
  | _, [] => []
  | 0, _ :: _ => []
  | n + 1, b :: rest => if b = 0 then [] else b :: runTake n rest

theorem runTake_length_le_budget : ∀ (n : Nat) (s : List Nat),
    (runTake n s).length ≤ n := by
  intro n s
  induction s generalizing n with
  | nil => simp [runTake]
  | cons b rest ih =>
    cases n with
    | zero => simp [runTake]
    | succ m =>
      simp only [runTake]
      split
      · simp
      · simpa using Nat.succ_le_succ (ih m)

theorem runTake_length_le : ∀ (n : Nat) (s : List Nat),
    (runTake n s).length ≤ s.length := by
  intro n s
  induction s generalizing n with
  | nil => simp [runTake]
  | cons b rest ih =>
    cases n with
    | zero => simp [runTake]
    | succ m =>
      simp only [runTake]
      split
      · simp
      · simpa using Nat.succ_le_succ (ih m)

theorem runTake_append_drop : ∀ (n : Nat) (s : List Nat),
    runTake n s ++ s.drop (runTake n s).length = s := by
  intro n s
  induction s generalizing n with
  | nil => simp [runTake]
  | cons b rest ih =>
    cases n with
    | zero => simp [runTake]
    | succ m =>
      simp only [runTake]
      split
      · simp
      · simpa using ih m

theorem runTake_ne_zero : ∀ (n : Nat) (s : List Nat) (x : Nat),
    x ∈ runTake n s → x ≠ 0 := by
  intro n s
  induction s generalizing n with
  | nil => simp [runTake]
  | cons b rest ih =>
    cases n with
    | zero => simp [runTake]
    | succ m =>
      intro x hx
      simp only [runTake] at hx
      split at hx
      · simp at hx
      · rcases List.mem_cons.mp hx with h | h
        · subst h; assumption
        · exact ih m x h

/-- If the leading run stops before both its budget and the end of the
input, the byte it stopped at is a zero. -/
theorem runTake_stop : ∀ (n : Nat) (s : List Nat),
    (runTake n s).length < n → (runTake n s).length < s.length →
    s.drop (runTake n s).length = 0 :: s.drop ((runTake n s).length + 1) := by
  intro n s
  induction s generalizing n with
  | nil => simp [runTake]
  | cons b rest ih =>
    cases n with
    | zero => simp [runTake]
    | succ m =>
      simp only [runTake]
      split
      · intro _ _
        simp_all
      · intro h1 h2
        simp only [List.length_cons] at h1 h2 ⊢
        simpa using ih m (by simpa using h1) (by simpa using h2)

/-- Functional form of the COBS encoding of one logical stream. -/
def encF (s : List Nat) : List Nat :=
  if (runTake 254 s).length = 254 then
    (255 :: runTake 254 s) ++ encF (s.drop 254)
  else if s.length ≤ (runTake 254 s).length then
    ((runTake 254 s).length + 1) :: runTake 254 s
  else
    (((runTake 254 s).length + 1) :: runTake 254 s) ++
      encF (s.drop ((runTake 254 s).length + 1))
termination_by s.length
decreasing_by
  · have := runTake_length_le 254 s
    simp only [List.length_drop]
    omega
  · have := runTake_length_le 254 s
    simp only [List.length_drop]
    omega

/-- The destination write log produced while encoding one logical stream,
with the first group's code byte slot at index `W`. -/
def encLogF (W : Nat) (s : List Nat) : List (Nat × Nat) :=
  if (runTake 254 s).length = 254 then
    (dataWrites (W + 1) (runTake 254 s) ++ [(W, 255)]) ++
      encLogF (W + 255) (s.drop 254)
  else if s.length ≤ (runTake 254 s).length then
    dataWrites (W + 1) (runTake 254 s) ++ [(W, (runTake 254 s).length + 1)]
  else
    (dataWrites (W + 1) (runTake 254 s) ++
        [(W, (runTake 254 s).length + 1)]) ++
      encLogF (W + (runTake 254 s).length + 1)
        (s.drop ((runTake 254 s).length + 1))
termination_by s.length
decreasing_by
  · have := runTake_length_le 254 s
    simp only [List.length_drop]
    omega
  · have := runTake_length_le 254 s
    simp only [List.length_drop]
    omega

theorem encF_length_pos (s : List Nat) : 1 ≤ (encF s).length := by
  rw [encF]
  split
  · simp
  · split <;> simp

theorem encF_nil : encF [] = [1] := by
  rw [encF]
  simp [runTake]

/-! ## Write-log replay lemmas -/

theorem applyLog_nil (d : Nat → Nat) : applyLog d [] = d := rfl

theorem applyLog_append (d : Nat → Nat) (l1 l2 : List (Nat × Nat)) :
    applyLog d (l1 ++ l2) = applyLog (applyLog d l1) l2 := by
  simp [applyLog, List.foldl_append]

theorem applyLog_cons (d : Nat → Nat) (p v : Nat) (l : List (Nat × Nat)) :
    applyLog d ((p, v) :: l) = applyLog (Function.update d p v) l := rfl

/-- A position no entry of the log writes to keeps its prior contents. -/
theorem applyLog_notouch (l : List (Nat × Nat)) :
    ∀ (d : Nat → Nat) (q : Nat), (∀ e ∈ l, e.1 ≠ q) → applyLog d l q = d q := by
  induction l with
  | nil => intro d q _; rfl
  | cons e rest ih =>
    intro d q h
    rcases e with ⟨p, v⟩
    rw [applyLog_cons, ih _ q fun e he => h e (List.mem_cons_of_mem _ he)]
    have hp : p ≠ q := h (p, v) (List.mem_cons_self _ _)
    exact Function.update_noteq (Ne.symm hp) v d

/-- A position some entry of the log writes to ends up holding a value that
was written to it. -/
theorem applyLog_mem (l : List (Nat × Nat)) :
    ∀ (d : Nat → Nat) (q : Nat), q ∈ l.map Prod.fst →
      (q, applyLog d l q) ∈ l := by
  induction l using List.reverseRecOn with
  | nil => simp
  | append_singleton rest e ih =>
    intro d q hq
    rcases e with ⟨p, v⟩
    rw [applyLog_append]
    by_cases hpq : q = p
    · subst hpq
      simp [applyLog, Function.update]
    · have hq' : q ∈ rest.map Prod.fst := by
        simp only [List.map_append, List.mem_append, List.map_cons,
          List.map_nil, List.mem_singleton] at hq
        tauto
      have hmem := ih d q hq'
      rw [applyLog_cons, applyLog_nil, Function.update_noteq hpq]
      exact List.mem_append_left _ hmem

/-! ## dataWrites lemmas -/

theorem dataWrites_length (W : Nat) (l : List Nat) :
    (dataWrites W l).length = l.length := by
  induction l generalizing W with
  | nil => rfl
  | cons b rest ih => simp [dataWrites, ih]

theorem dataWrites_append (l1 l2 : List Nat) : ∀ (W : Nat),
    dataWrites W (l1 ++ l2) =
      dataWrites W l1 ++ dataWrites (W + l1.length) l2 := by
  induction l1 with
  | nil => simp [dataWrites]
  | cons b rest ih =>
    intro W
    simp only [List.cons_append, dataWrites, List.length_cons, List.append_eq]
    rw [ih (W + 1)]
    have h2 : W + 1 + rest.length = W + (rest.length + 1) := by omega
    rw [h2]

theorem dataWrites_idx (l : List Nat) : ∀ (W : Nat) (e : Nat × Nat),
    e ∈ dataWrites W l → W ≤ e.1 ∧ e.1 < W + l.length := by
  induction l with
  | nil => simp [dataWrites]
  | cons b rest ih =>
    intro W e he
    simp only [dataWrites, List.mem_cons] at he
    rcases he with h | h
    · subst h; simp
    · have := ih (W + 1) e h
      simp only [List.length_cons]
      omega

theorem dataWrites_values (l : List Nat) : ∀ (W : Nat) (e : Nat × Nat),
    e ∈ dataWrites W l → e.2 ∈ l := by
  induction l with
  | nil => simp [dataWrites]
  | cons b rest ih =>
    intro W e he
    simp only [dataWrites, List.mem_cons] at he
    rcases he with h | h
    · subst h; simp
    · exact List.mem_cons_of_mem _ (ih (W + 1) e h)

/-- Replaying the writes of `dataWrites W l` at position `W + i` yields
`l.getD i`. -/
theorem applyLog_dataWrites (l : List Nat) : ∀ (W i : Nat) (d : Nat → Nat),
    i < l.length → applyLog d (dataWrites W l) (W + i) = l.getD i 0 := by
  induction l with
  | nil => simp
  | cons b rest ih =>
    intro W i d hi
    simp only [dataWrites, applyLog_cons]
    cases i with
    | zero =>
      rw [applyLog_notouch]
      · simp [Function.update]
      · intro e he
        have := dataWrites_idx rest (W + 1) e he
        omega
    | succ j =>
      have : W + (j + 1) = (W + 1) + j := by omega
      rw [this, ih (W + 1) j _ (by simpa using hi)]
      simp

/-- Positions outside `[W, W + l.length)` are untouched by `dataWrites`. -/
theorem applyLog_dataWrites_out (l : List Nat) (W q : Nat) (d : Nat → Nat)
    (h : q < W ∨ W + l.length ≤ q) :
    applyLog d (dataWrites W l) q = d q := by
  apply applyLog_notouch
  intro e he
  have := dataWrites_idx l W e he
  omega

/-! ## List indexing helpers -/

theorem getD_append_size (pre : List Nat) : ∀ (l : List Nat) (j : Nat),
    (pre ++ l).getD (pre.length + j) 0 = l.getD j 0 := by
  induction pre with
  | nil => simp
  | cons b rest ih =>
    intro l j
    simpa [Nat.succ_add] using ih l j

theorem getD_append_left (l t : List Nat) : ∀ (j : Nat), j < l.length →
    (l ++ t).getD j 0 = l.getD j 0 := by
  induction l with
  | nil => simp
  | cons b rest ih =>
    intro j hj
    cases j with
    | zero => rfl
    | succ i => simpa using ih i (by simpa using hj)

/-! ## Branch equations for the functional encoder -/

theorem encF_flush (s : List Nat) (h : (runTake 254 s).length = 254) :
    encF s = (255 :: runTake 254 s) ++ encF (s.drop 254) := by
  rw [encF]
  simp [h]

theorem encF_last (s : List Nat) (h1 : (runTake 254 s).length ≠ 254)
    (h2 : s.length ≤ (runTake 254 s).length) :
    encF s = ((runTake 254 s).length + 1) :: runTake 254 s := by
  rw [encF]
  simp [h1, h2]

theorem encF_zero (s : List Nat) (h1 : (runTake 254 s).length ≠ 254)
    (h2 : ¬ s.length ≤ (runTake 254 s).length) :
    encF s = (((runTake 254 s).length + 1) :: runTake 254 s) ++
      encF (s.drop ((runTake 254 s).length + 1)) := by
  rw [encF]
  simp [h1, h2]

theorem encLogF_flush (W : Nat) (s : List Nat)
    (h : (runTake 254 s).length = 254) :
    encLogF W s = (dataWrites (W + 1) (runTake 254 s) ++ [(W, 255)]) ++
      encLogF (W + 255) (s.drop 254) := by
  rw [encLogF]
  simp [h]

theorem encLogF_last (W : Nat) (s : List Nat)
    (h1 : (runTake 254 s).length ≠ 254)
    (h2 : s.length ≤ (runTake 254 s).length) :
    encLogF W s = dataWrites (W + 1) (runTake 254 s) ++
      [(W, (runTake 254 s).length + 1)] := by
  rw [encLogF]
  simp [h1, h2]

theorem encLogF_zero (W : Nat) (s : List Nat)
    (h1 : (runTake 254 s).length ≠ 254)
    (h2 : ¬ s.length ≤ (runTake 254 s).length) :
    encLogF W s = (dataWrites (W + 1) (runTake 254 s) ++
        [(W, (runTake 254 s).length + 1)]) ++
      encLogF (W + (runTake 254 s).length + 1)
        (s.drop ((runTake 254 s).length + 1)) := by
  rw [encLogF]
  simp [h1, h2]

/-! ## The imperative encoder loop against the functional form -/

/-- Folding the loop body over a run of non-zero bytes that does not reach a
flush: the bytes are copied to consecutive destination slots and `code`
grows by the run length. -/
theorem foldl_encByte_run (r : List Nat) : ∀ (st : COBS.EncState),
    (∀ x ∈ r, x ≠ 0) → st.wi = st.ci + st.code →
    st.code + r.length ≤ 254 → st.wi + r.length ≤ 65535 →
    r.foldl COBS.encByte st =
      ⟨st.wi + r.length, st.ci, st.code + r.length,
        st.log ++ dataWrites st.wi r⟩ := by
  induction r with
  | nil =>
    intro st _ _ _ _
    simp [dataWrites]
  | cons b rest ih =>
    intro st hnz hwc hcode hbound
    have hb : b ≠ 0 := hnz b (List.mem_cons_self _ _)
    have hlt : st.code + 1 < 256 := by
      simp only [List.length_cons] at hcode
      omega
    have hc1 : (st.code + 1) % 256 = st.code + 1 := Nat.mod_eq_of_lt hlt
    have hne255 : (st.code + 1) % 256 ≠ 255 := by
      rw [hc1]
      simp only [List.length_cons] at hcode
      omega
    have hw1 : (st.wi + 1) % 65536 = st.wi + 1 := by
      apply Nat.mod_eq_of_lt
      simp only [List.length_cons] at hbound
      omega
    have hstep : COBS.encByte st b =
        ⟨st.wi + 1, st.ci, st.code + 1, st.log ++ [(st.wi, b)]⟩ := by
      simp only [COBS.encByte, if_neg hb, hw1, hc1]
      rw [if_neg (by simp only [List.length_cons] at hcode; omega :
        ¬ st.code + 1 = 255)]
    rw [List.foldl_cons, hstep]
    rw [ih ⟨st.wi + 1, st.ci, st.code + 1, st.log ++ [(st.wi, b)]⟩
      (fun x hx => hnz x (List.mem_cons_of_mem _ hx))
      (by simp only []; omega)
      (by simp only [List.length_cons] at hcode; simp only []; omega)
      (by simp only [List.length_cons] at hbound; simp only []; omega)]
    have e1 : st.wi + 1 + rest.length = st.wi + (rest.length + 1) := by omega
    have e2 : st.code + 1 + rest.length = st.code + (rest.length + 1) := by
      omega
    simp [dataWrites, e1, e2]

/-- The loop body on a zero byte closes the current group. -/
theorem encByte_zero (st : COBS.EncState) :
    COBS.encByte st 0 =
      ⟨(st.wi + 1) % 65536, st.wi, 1, st.log ++ [(st.ci, st.code)]⟩ := by
  simp [COBS.encByte]

/-- The loop body on a non-zero byte with `code = 254` copies the byte and
then flushes with code byte `0xFF`. -/
theorem encByte_flush (st : COBS.EncState) (b : Nat) (hb : b ≠ 0)
    (hc : st.code = 254) :
    COBS.encByte st b =
      ⟨((st.wi + 1) % 65536 + 1) % 65536, (st.wi + 1) % 65536, 1,
        (st.log ++ [(st.wi, b)]) ++ [(st.ci, 255)]⟩ := by
  simp [COBS.encByte, hb, hc]

/-- Main loop lemma: from a fresh group state (a reserved code slot at
`code_index`, `code = 1`, `write_index = code_index + 1`), running the
encoder loop over the remaining input `s` and then writing the final code
byte produces exactly the functional encoding `encF s` / `encLogF`:
the final `write_index` is `code_index + (encF s).length` and the writes
performed are exactly `encLogF st.ci s`. -/
theorem encode_loop_encF : ∀ (k : Nat) (s : List Nat) (st : COBS.EncState),
    s.length ≤ k → st.code = 1 → st.wi = st.ci + 1 →
    st.ci + (encF s).length ≤ 65535 →
    (s.foldl COBS.encByte st).wi = st.ci + (encF s).length ∧
      (s.foldl COBS.encByte st).log ++
          [((s.foldl COBS.encByte st).ci, (s.foldl COBS.encByte st).code)] =
        st.log ++ encLogF st.ci s := by
  intro k
  induction k with
  | zero =>
    intro s st hlen hcode hwc _
    have hs : s = [] := List.length_eq_zero.mp (Nat.le_zero.mp hlen)
    subst hs
    refine ⟨by simpa [encF_nil] using hwc, ?_⟩
    rw [encLogF_last st.ci [] (by simp [runTake]) (by simp [runTake])]
    simp [runTake, dataWrites, hcode]
  | succ k ih =>
    intro s st hlen hcode hwc hbound
    have hble := runTake_length_le_budget 254 s
    have hsle := runTake_length_le 254 s
    have hsplit := runTake_append_drop 254 s
    by_cases h254 : (runTake 254 s).length = 254
    · -- flush group: 254 non-zero bytes, code byte 0xFF
      obtain ⟨r, b, hr⟩ : ∃ r' b, runTake 254 s = r' ++ [b] := by
        rcases List.eq_nil_or_concat (runTake 254 s) with h | h
        · rw [h] at h254; simp at h254
        · obtain ⟨L, c, hLc⟩ := h
          exact ⟨L, c, by simpa [List.concat_eq_append] using hLc⟩
      have hrlen : r.length = 253 := by
        have := congrArg List.length hr
        simp at this
        omega
      have hlenF : (encF s).length =
          255 + (encF (s.drop 254)).length := by
        rw [encF_flush s h254]
        simp [h254]
        omega
      have hFpos := encF_length_pos (s.drop 254)
      have hslen : 254 ≤ s.length := by omega
      have hdlen : (s.drop 254).length = s.length - 254 := by
        simp [List.length_drop]
      have hnz : ∀ x ∈ runTake 254 s, x ≠ 0 := runTake_ne_zero 254 s
      have hbnz : b ≠ 0 := hnz b (by rw [hr]; simp)
      have hrnz : ∀ x ∈ r, x ≠ 0 := fun x hx => hnz x (by rw [hr]; simp [hx])
      -- decompose the fold
      have hs2 : s = (r ++ [b]) ++ s.drop 254 := by
        conv_lhs => rw [← hsplit]
        rw [h254, hr]
      have hA := foldl_encByte_run r st hrnz (by omega)
        (by omega) (by omega)
      set st1 : COBS.EncState :=
        ⟨st.wi + r.length, st.ci, st.code + r.length,
          st.log ++ dataWrites st.wi r⟩ with hst1
      have hB : COBS.encByte st1 b =
          ⟨st.ci + 256, st.ci + 255, 1,
            (st1.log ++ [(st1.wi, b)]) ++ [(st1.ci, 255)]⟩ := by
        rw [encByte_flush st1 b hbnz (by simp [hst1]; omega)]
        have hm1 : (st1.wi + 1) % 65536 = st.ci + 255 := by
          simp only [hst1]
          rw [Nat.mod_eq_of_lt (by omega)]
          omega
        rw [hm1, Nat.mod_eq_of_lt (by omega)]
      set st2 : COBS.EncState :=
        ⟨st.ci + 256, st.ci + 255, 1,
          (st1.log ++ [(st1.wi, b)]) ++ [(st1.ci, 255)]⟩ with hst2
      have hIH := ih (s.drop 254) st2
        (by omega)
        (by simp [hst2]) (by simp [hst2]) (by simp [hst2]; omega)
      have hfold : s.foldl COBS.encByte st =
          (s.drop 254).foldl COBS.encByte st2 := by
        conv_lhs => rw [hs2]
        rw [List.foldl_append, List.foldl_append, hA]
        simp only [List.foldl_cons, List.foldl_nil]
        rw [hB]
      rw [hfold]
      refine ⟨by rw [hIH.1]; simp only [hst2]; omega, ?_⟩
      rw [hIH.2, encLogF_flush st.ci s h254, hr]
      rw [dataWrites_append r [b] (st.ci + 1)]
      simp only [hst2, hst1, dataWrites, hrlen, hwc]
      simp [List.append_assoc]
    · by_cases hend : s.length ≤ (runTake 254 s).length
      · -- final group: input exhausted without a zero
        have hr : runTake 254 s = s := by
          have h4 : s.drop (runTake 254 s).length = [] := by
            have h5 : (s.drop (runTake 254 s).length).length = 0 := by
              simp only [List.length_drop]
              omega
            exact List.length_eq_zero.mp h5
          rw [h4, List.append_nil] at hsplit
          exact hsplit
        have hlenF : (encF s).length = s.length + 1 := by
          rw [encF_last s h254 hend, hr]
          simp
        have hnz : ∀ x ∈ s, x ≠ 0 := by
          intro x hx
          exact runTake_ne_zero 254 s x (by rwa [hr])
        have hA := foldl_encByte_run s st hnz (by omega)
          (by rw [hr] at hble; omega) (by omega)
        rw [hA]
        refine ⟨by simp; omega, ?_⟩
        rw [encLogF_last st.ci s h254 hend, hr]
        simp only [hwc, hcode]
        have : 1 + s.length = s.length + 1 := by omega
        rw [this]
        simp [List.append_assoc]
      · -- a zero byte ends the group
        have hstop := runTake_stop 254 s (by omega) (by omega)
        have hs2 : s = runTake 254 s ++
            (0 :: s.drop ((runTake 254 s).length + 1)) := by
          conv_lhs => rw [← hsplit]
          rw [hstop]
        have hlenF : (encF s).length =
            (runTake 254 s).length + 1 +
              (encF (s.drop ((runTake 254 s).length + 1))).length := by
          rw [encF_zero s h254 hend]
          simp
          omega
        have hFpos := encF_length_pos (s.drop ((runTake 254 s).length + 1))
        have hnz := runTake_ne_zero 254 s
        have hA := foldl_encByte_run (runTake 254 s) st hnz (by omega)
          (by omega) (by omega)
        set st1 : COBS.EncState :=
          ⟨st.wi + (runTake 254 s).length, st.ci,
            st.code + (runTake 254 s).length,
            st.log ++ dataWrites st.wi (runTake 254 s)⟩ with hst1
        have hB : COBS.encByte st1 0 =
            ⟨st.ci + (runTake 254 s).length + 2,
              st.ci + (runTake 254 s).length + 1, 1,
              st1.log ++ [(st1.ci, st1.code)]⟩ := by
          rw [encByte_zero st1]
          simp only [hst1]
          rw [Nat.mod_eq_of_lt (by omega)]
          have e1 : st.wi + (runTake 254 s).length + 1 =
              st.ci + (runTake 254 s).length + 2 := by omega
          have e2 : st.wi + (runTake 254 s).length =
              st.ci + (runTake 254 s).length + 1 := by omega
          rw [e1, e2]
        set st2 : COBS.EncState :=
          ⟨st.ci + (runTake 254 s).length + 2,
            st.ci + (runTake 254 s).length + 1, 1,
            st1.log ++ [(st1.ci, st1.code)]⟩ with hst2
        have hIH := ih (s.drop ((runTake 254 s).length + 1)) st2
          (by
            have h6 : (s.drop ((runTake 254 s).length + 1)).length =
                s.length - ((runTake 254 s).length + 1) := by
              simp [List.length_drop]
            omega)
          (by simp [hst2]) (by simp [hst2]) (by simp [hst2]; omega)
        have hfold : s.foldl COBS.encByte st =
            (s.drop ((runTake 254 s).length + 1)).foldl COBS.encByte st2 := by
          conv_lhs => rw [hs2]
          rw [List.foldl_append]
          simp only [List.foldl_cons]
          rw [hA, hB]
        rw [hfold]
        refine ⟨by rw [hIH.1]; simp only [hst2]; omega, ?_⟩
        rw [hIH.2, encLogF_zero st.ci s h254 hend]
        simp only [hst2, hst1, hwc, hcode]
        have : 1 + (runTake 254 s).length = (runTake 254 s).length + 1 := by
          omega
        rw [this]
        simp [List.append_assoc]


/-! ## From the three-segment encoder to a single fold -/

/-- `COBS::encode` is the fold of the loop body over the concatenation of
header, body and trailer (the three loops share all encoder state), followed
by the final code-byte write. -/
theorem encode_foldl (h b t : List Nat) :
    COBS.encode h b t =
      (((h ++ b ++ t).foldl COBS.encByte COBS.encInit).wi,
        ((h ++ b ++ t).foldl COBS.encByte COBS.encInit).log ++
          [(((h ++ b ++ t).foldl COBS.encByte COBS.encInit).ci,
            ((h ++ b ++ t).foldl COBS.encByte COBS.encInit).code)]) := by
  simp [COBS.encode, List.foldl_append]

/-- When the encoded stream fits the 16-bit index range, `COBS::encode`
returns exactly the functional encoding: length `(encF S).length` and write
log `encLogF 0 S`, for `S` the concatenation of the three segments. -/
theorem encode_eq_encF (h b t : List Nat)
    (hbound : (encF (h ++ b ++ t)).length ≤ 65535) :
    COBS.encode h b t =
      ((encF (h ++ b ++ t)).length, encLogF 0 (h ++ b ++ t)) := by
  have hmain := encode_loop_encF (h ++ b ++ t).length (h ++ b ++ t)
    COBS.encInit le_rfl rfl rfl (by simpa [COBS.encInit] using hbound)
  rw [encode_foldl]
  simp only [COBS.encInit] at hmain ⊢
  rw [hmain.2]
  simp only [Prod.mk.injEq]
  exact ⟨by simpa using hmain.1, by simp⟩

/-! ## Semantics of the functional write log -/

theorem encLogF_idx : ∀ (k : Nat) (s : List Nat) (W : Nat),
    s.length ≤ k → ∀ e ∈ encLogF W s, W ≤ e.1 ∧ e.1 < W + (encF s).length := by
  intro k
  induction k with
  | zero =>
    intro s W hlen e he
    have hs : s = [] := List.length_eq_zero.mp (Nat.le_zero.mp hlen)
    subst hs
    rw [encLogF_last W [] (by simp [runTake]) (by simp [runTake])] at he
    simp [runTake, dataWrites] at he
    rw [encF_nil]
    simp [he]
  | succ k ih =>
    intro s W hlen e he
    have hble := runTake_length_le_budget 254 s
    have hsle := runTake_length_le 254 s
    by_cases h254 : (runTake 254 s).length = 254
    · have hslen : 254 ≤ s.length := by omega
      have hlenF : (encF s).length = 255 + (encF (s.drop 254)).length := by
        rw [encF_flush s h254]; simp [h254]; omega
      rw [encLogF_flush W s h254] at he
      have hdlen : (s.drop 254).length = s.length - 254 := by
        simp [List.length_drop]
      simp only [List.mem_append, List.mem_singleton] at he
      rcases he with (he | he) | he
      · have := dataWrites_idx _ _ _ he
        omega
      · subst he; simp; omega
      · have := ih (s.drop 254) (W + 255) (by omega) e he
        omega
    · by_cases hend : s.length ≤ (runTake 254 s).length
      · have hlenF : (encF s).length = (runTake 254 s).length + 1 := by
          rw [encF_last s h254 hend]; simp
        rw [encLogF_last W s h254 hend] at he
        simp only [List.mem_append, List.mem_singleton] at he
        rcases he with he | he
        · have := dataWrites_idx _ _ _ he
          omega
        · subst he; simp; omega
      · have hlenF : (encF s).length = (runTake 254 s).length + 1 +
            (encF (s.drop ((runTake 254 s).length + 1))).length := by
          rw [encF_zero s h254 hend]; simp; omega
        rw [encLogF_zero W s h254 hend] at he
        have hdlen : (s.drop ((runTake 254 s).length + 1)).length =
            s.length - ((runTake 254 s).length + 1) := by
          simp [List.length_drop]
        simp only [List.mem_append, List.mem_singleton] at he
        rcases he with (he | he) | he
        · have := dataWrites_idx _ _ _ he
          omega
        · subst he; simp; omega
        · have := ih (s.drop ((runTake 254 s).length + 1))
            (W + (runTake 254 s).length + 1) (by omega) e he
          omega

/-- Replaying one group's writes (data bytes at `W+1 ...`, code byte at `W`)
reads back the group `c :: r`. -/
theorem applyLog_group (r : List Nat) (c W : Nat) (d : Nat → Nat) (j : Nat)
    (hj : j < r.length + 1) :
    applyLog d (dataWrites (W + 1) r ++ [(W, c)]) (W + j) =
      (c :: r).getD j 0 := by
  rw [applyLog_append, applyLog_cons, applyLog_nil]
  cases j with
  | zero =>
    simp [Function.update]
  | succ i =>
    rw [Function.update_noteq (by omega)]
    have h1 : W + (i + 1) = (W + 1) + i := by omega
    rw [h1, applyLog_dataWrites r (W + 1) i d (by omega)]
    simp

theorem encLogF_lookup : ∀ (k : Nat) (s : List Nat) (W : Nat) (d : Nat → Nat)
    (j : Nat), s.length ≤ k → j < (encF s).length →
    applyLog d (encLogF W s) (W + j) = (encF s).getD j 0 := by
  intro k
  induction k with
  | zero =>
    intro s W d j hlen hj
    have hs : s = [] := List.length_eq_zero.mp (Nat.le_zero.mp hlen)
    subst hs
    rw [encF_nil] at hj ⊢
    rw [encLogF_last W [] (by simp [runTake]) (by simp [runTake])]
    have hj0 : j = 0 := by simpa using hj
    subst hj0
    have := applyLog_group [] 1 W d 0 (by simp)
    simpa [runTake] using this
  | succ k ih =>
    intro s W d j hlen hj
    have hble := runTake_length_le_budget 254 s
    have hsle := runTake_length_le 254 s
    by_cases h254 : (runTake 254 s).length = 254
    · have hslen : 254 ≤ s.length := by omega
      have hdlen : (s.drop 254).length = s.length - 254 := by
        simp [List.length_drop]
      have hlenF : (encF s).length = 255 + (encF (s.drop 254)).length := by
        rw [encF_flush s h254]; simp [h254]; omega
      rw [encLogF_flush W s h254, encF_flush s h254]
      by_cases hjlt : j < 255
      · rw [applyLog_append, applyLog_notouch]
        · rw [applyLog_group (runTake 254 s) 255 W d j (by omega)]
          have hplen : (255 :: runTake 254 s).length = 255 := by
            simp [h254]
          rw [getD_append_left (255 :: runTake 254 s) _ j (by omega)]
        · intro e he
          have := encLogF_idx k (s.drop 254) (W + 255) (by omega) e he
          omega
      · have hj' : j = 255 + (j - 255) := by omega
        rw [applyLog_append]
        have h2 : W + j = (W + 255) + (j - 255) := by omega
        rw [h2, ih (s.drop 254) (W + 255) _ (j - 255) (by omega)
          (by rw [encF_flush s h254] at hj; simp [h254] at hj; omega)]
        have h3 := getD_append_size (255 :: runTake 254 s) (encF (s.drop 254))
          (j - 255)
        have hplen : (255 :: runTake 254 s).length = 255 := by simp [h254]
        rw [hplen] at h3
        rw [← h3]
        have h4 : 255 + (j - 255) = j := by omega
        rw [h4]
    · by_cases hend : s.length ≤ (runTake 254 s).length
      · rw [encLogF_last W s h254 hend, encF_last s h254 hend]
        rw [encF_last s h254 hend] at hj
        exact applyLog_group (runTake 254 s) _ W d j (by simpa using hj)
      · have hdlen : (s.drop ((runTake 254 s).length + 1)).length =
            s.length - ((runTake 254 s).length + 1) := by
          simp [List.length_drop]
        have hlenF : (encF s).length = (runTake 254 s).length + 1 +
            (encF (s.drop ((runTake 254 s).length + 1))).length := by
          rw [encF_zero s h254 hend]; simp; omega
        rw [encLogF_zero W s h254 hend, encF_zero s h254 hend]
        by_cases hjlt : j < (runTake 254 s).length + 1
        · rw [applyLog_append, applyLog_notouch]
          · rw [applyLog_group (runTake 254 s) _ W d j (by omega)]
            rw [getD_append_left _ _ j (by simpa using hjlt)]
          · intro e he
            have := encLogF_idx k (s.drop ((runTake 254 s).length + 1))
              (W + (runTake 254 s).length + 1) (by omega) e he
            omega
        · rw [applyLog_append]
          have h2 : W + j = (W + (runTake 254 s).length + 1) +
              (j - ((runTake 254 s).length + 1)) := by omega
          rw [h2, ih (s.drop ((runTake 254 s).length + 1))
            (W + (runTake 254 s).length + 1) _ _ (by omega) (by omega)]
          have h3 := getD_append_size
            (((runTake 254 s).length + 1) :: runTake 254 s)
            (encF (s.drop ((runTake 254 s).length + 1)))
            (j - ((runTake 254 s).length + 1))
          have hplen : ((((runTake 254 s).length + 1) ::
              runTake 254 s)).length = (runTake 254 s).length + 1 := by simp
          rw [hplen] at h3
          rw [← h3]
          have h4 : (runTake 254 s).length + 1 +
              (j - ((runTake 254 s).length + 1)) = j := by omega
          rw [h4]

/-- Reading the first `(encF S).length` destination cells after an encode
yields exactly the functional encoding, whatever the initial contents. -/
theorem encodedList_eq_encF (S : List Nat) (d0 : Nat → Nat) :
    (List.range (encF S).length).map (applyLog d0 (encLogF 0 S)) = encF S := by
  apply List.ext_getElem
  · simp
  · intro i h1 h2
    simp only [List.getElem_map, List.getElem_range]
    have h3 := encLogF_lookup S.length S 0 d0 i le_rfl (by simpa using h2)
    rw [Nat.zero_add] at h3
    rw [h3, List.getD_eq_getElem]

/-! ## The fueled decode loop agrees with the decode loop -/

/-- The `COBS::decode` loop makes at most `size - read_index` iterations:
with that much fuel the fueled variant computes the same result. -/
theorem decodeFuelAux_eq : ∀ (fuel : Nat) (src : List Nat) (size ri wi : Nat)
    (log : List (Nat × Nat)) (reads : List Nat), size - ri ≤ fuel →
    COBS.decodeFuelAux fuel src size ri wi log reads =
      COBS.decodeAux src size ri wi log reads := by
  intro fuel
  induction fuel with
  | zero =>
    intro src size ri wi log reads h
    have h1 : ¬ ri < size := by omega
    rw [COBS.decodeAux.eq_def]
    simp [COBS.decodeFuelAux, h1]
  | succ fuel ih =>
    intro src size ri wi log reads h
    rw [COBS.decodeAux.eq_def]
    simp only [COBS.decodeFuelAux]
    by_cases h1 : ri < size
    · rw [if_pos h1, dif_pos h1]
      by_cases h2 : ri + src.getD ri 0 > size ∧ src.getD ri 0 ≠ 1
      · rw [if_pos h2, if_pos h2]
      · rw [if_neg h2, if_neg h2]
        by_cases h3 : src.getD ri 0 ≠ 255 ∧
            ri + 1 + (src.getD ri 0 - 1) ≠ size
        · rw [if_pos h3, if_pos h3]
          exact ih src size _ _ _ _ (by omega)
        · rw [if_neg h3, if_neg h3]
          exact ih src size _ _ _ _ (by omega)
    · rw [if_neg h1, dif_neg h1]

/-- `COBS::decode` evaluated through the fueled loop with fuel `size`. -/
theorem decode_eval (src : List Nat) (size : Nat) :
    COBS.decode src size = COBS.decodeFuelAux size src size 0 0 [] [] :=
  (decodeFuelAux_eq size src size 0 0 [] [] (by omega)).symm

/-! ## Decoding a functionally encoded stream -/

theorem dataWrites_eq_rangeMap (r : List Nat) : ∀ (W : Nat),
    dataWrites W r =
      (List.range r.length).map (fun j => (W + j, r.getD j 0)) := by
  induction r with
  | nil => simp [dataWrites]
  | cons b rest ih =>
    intro W
    simp only [dataWrites, List.length_cons, List.range_succ_eq_map,
      List.map_cons, List.map_map]
    refine congrArg₂ _ (by simp) ?_
    rw [ih (W + 1)]
    apply List.map_congr_left
    intro j _
    simp only [Function.comp_apply, List.getD_cons_succ]
    refine congrArg₂ _ (by omega) rfl

/-- The copy loop's write list is `dataWrites` when the source bytes under it
are the bytes of `r`. -/
theorem rangeMap_getD (src r : List Nat) (off W : Nat)
    (hval : ∀ j, j < r.length → src.getD (off + j) 0 = r.getD j 0) :
    (List.range r.length).map (fun j => (W + j, src.getD (off + j) 0)) =
      dataWrites W r := by
  rw [dataWrites_eq_rangeMap]
  apply List.map_congr_left
  intro j hj
  rw [hval j (List.mem_range.mp hj)]

/-- Reading a data byte of the group `c :: r` sitting at offset `pre.length`
inside the source. -/
theorem getD_mid (pre : List Nat) (c : Nat) (r tail : List Nat) (j : Nat)
    (hj : j < r.length) :
    (pre ++ (c :: (r ++ tail))).getD (pre.length + 1 + j) 0 = r.getD j 0 := by
  have h1 : pre ++ (c :: (r ++ tail)) = (pre ++ [c]) ++ (r ++ tail) := by simp
  have h2 : pre.length + 1 + j = (pre ++ [c]).length + j := by simp
  rw [h1, h2, getD_append_size (pre ++ [c]) (r ++ tail) j,
    getD_append_left r tail j hj]

/-- Reading the group's code byte at offset `pre.length`. -/
theorem getD_head (pre : List Nat) (c : Nat) (tail : List Nat) :
    (pre ++ (c :: tail)).getD pre.length 0 = c := by
  have h2 : pre.length = pre.length + 0 := by omega
  rw [h2, getD_append_size pre (c :: tail) 0]
  rfl

/-- Decoding an encoded stream: if the source from offset `ri` onwards is
`encF s` (with `size` at its end), the `COBS::decode` loop writes exactly the
bytes of `s` at consecutive destination indices from `W` and finishes with
write cursor `W + s.length`. -/
theorem decode_encF : ∀ (k : Nat) (s pre src : List Nat) (size ri W : Nat)
    (log : List (Nat × Nat)) (reads : List Nat),
    s.length ≤ k → src = pre ++ encF s → ri = pre.length →
    size = ri + (encF s).length →
    (COBS.decodeAux src size ri W log reads).ret = W + s.length ∧
    (COBS.decodeAux src size ri W log reads).log = log ++ dataWrites W s := by
  intro k
  induction k with
  | zero =>
    intro s pre src size ri W log reads hlen hsrc hri hsize
    have hs : s = [] := List.length_eq_zero.mp (Nat.le_zero.mp hlen)
    subst hs
    rw [encF_nil] at hsrc hsize
    have hcode : src.getD ri 0 = 1 := by
      rw [hsrc, hri]
      exact getD_head pre 1 []
    have hsz : size = ri + 1 := by simpa using hsize
    rw [COBS.decodeAux.eq_def, dif_pos (by omega : ri < size)]
    simp only [hcode]
    rw [if_neg (by rintro ⟨-, h2⟩; exact h2 rfl)]
    rw [if_neg (by rintro ⟨-, h2⟩; omega)]
    rw [COBS.decodeAux.eq_def, dif_neg (by omega : ¬ ri + 1 + (1 - 1) < size)]
    simp [dataWrites]
  | succ k ih =>
    intro s pre src size ri W log reads hlen hsrc hri hsize
    have hble := runTake_length_le_budget 254 s
    have hsle := runTake_length_le 254 s
    have hsplit := runTake_append_drop 254 s
    by_cases h254 : (runTake 254 s).length = 254
    · -- flush group: code byte 0xFF, 254 data bytes, no zero reinserted
      have hslen : 254 ≤ s.length := by omega
      have hs2 : s = runTake 254 s ++ s.drop 254 := by
        rw [h254] at hsplit
        exact hsplit.symm
      have hdlen : (s.drop 254).length = s.length - 254 := by
        simp [List.length_drop]
      have hsrc2 : src = pre ++ (255 :: (runTake 254 s ++
          encF (s.drop 254))) := by
        rw [hsrc, encF_flush s h254]
        simp
      have hsizeF : (encF s).length = 255 + (encF (s.drop 254)).length := by
        rw [encF_flush s h254]
        simp [h254]
        omega
      have hFpos := encF_length_pos (s.drop 254)
      have hcode : src.getD ri 0 = 255 := by
        rw [hsrc2, hri]
        exact getD_head pre 255 _
      rw [COBS.decodeAux.eq_def, dif_pos (by omega)]
      simp only [hcode]
      rw [if_neg (by rintro ⟨h1, -⟩; omega)]
      rw [(show (255 : Nat) - 1 = (runTake 254 s).length from by omega)]
      rw [rangeMap_getD src (runTake 254 s) (ri + 1) W
        (by
          intro j hj
          rw [hsrc2, hri]
          have e1 : pre.length + 1 + j = pre.length + 1 + j := rfl
          exact getD_mid pre 255 _ _ j hj)]
      rw [if_neg (by rintro ⟨h1, -⟩; exact h1 rfl)]
      have hIH := ih (s.drop 254) (pre ++ (255 :: runTake 254 s)) src size
        (ri + 1 + ((runTake 254 s).length)) (W + (runTake 254 s).length)
        (log ++ dataWrites W (runTake 254 s)) (reads ++ [ri] ++
          (List.range (runTake 254 s).length).map fun j => ri + 1 + j)
        (by omega)
        (by rw [hsrc2]; simp)
        (by simp [h254]; omega)
        (by simp [h254]; omega)
      refine ⟨?_, ?_⟩
      · rw [hIH.1]
        omega
      · rw [hIH.2]
        conv_rhs => rw [hs2]
        rw [dataWrites_append (runTake 254 s) (s.drop 254) W, h254]
        simp [List.append_assoc, h254]
    · by_cases hend : s.length ≤ (runTake 254 s).length
      · -- final group: ends exactly at the end of the buffer
        have hr : runTake 254 s = s := by
          have h4 : s.drop (runTake 254 s).length = [] := by
            apply List.length_eq_zero.mp
            simp only [List.length_drop]
            omega
          rw [h4, List.append_nil] at hsplit
          exact hsplit
        have hsrc2 : src = pre ++ ((s.length + 1) :: (s ++ [])) := by
          rw [hsrc, encF_last s h254 hend, hr]
          simp
        have hsizeF : (encF s).length = s.length + 1 := by
          rw [encF_last s h254 hend, hr]
          simp
        have hcode : src.getD ri 0 = s.length + 1 := by
          rw [hsrc2, hri]
          exact getD_head pre _ _
        have hs254 : s.length ≤ 253 := by omega
        rw [COBS.decodeAux.eq_def, dif_pos (by omega)]
        simp only [hcode]
        rw [if_neg (by rintro ⟨h1, -⟩; omega)]
        rw [(show s.length + 1 - 1 = s.length from by omega)]
        rw [rangeMap_getD src s (ri + 1) W
          (by
            intro j hj
            rw [hsrc2, hri]
            exact getD_mid pre _ _ _ j hj)]
        rw [if_neg (by rintro ⟨-, h2⟩; omega)]
        rw [COBS.decodeAux.eq_def, dif_neg (by omega)]
        exact ⟨rfl, rfl⟩
      · -- the group ends at a zero byte of the input
        have hstop := runTake_stop 254 s (by omega) (by omega)
        have hs2 : s = runTake 254 s ++
            (0 :: s.drop ((runTake 254 s).length + 1)) := by
          conv_lhs => rw [← hsplit]
          rw [hstop]
        have hdlen : (s.drop ((runTake 254 s).length + 1)).length =
            s.length - ((runTake 254 s).length + 1) := by
          simp [List.length_drop]
        have hsrc2 : src = pre ++ (((runTake 254 s).length + 1) ::
            (runTake 254 s ++ encF (s.drop ((runTake 254 s).length + 1)))) := by
          rw [hsrc, encF_zero s h254 hend]
          simp
        have hsizeF : (encF s).length = (runTake 254 s).length + 1 +
            (encF (s.drop ((runTake 254 s).length + 1))).length := by
          rw [encF_zero s h254 hend]
          simp
          omega
        have hFpos := encF_length_pos (s.drop ((runTake 254 s).length + 1))
        have hcode : src.getD ri 0 = (runTake 254 s).length + 1 := by
          rw [hsrc2, hri]
          exact getD_head pre _ _
        rw [COBS.decodeAux.eq_def, dif_pos (by omega)]
        simp only [hcode]
        rw [if_neg (by rintro ⟨h1, -⟩; omega)]
        rw [(show (runTake 254 s).length + 1 - 1 = (runTake 254 s).length
          from by omega)]
        rw [rangeMap_getD src (runTake 254 s) (ri + 1) W
          (by
            intro j hj
            rw [hsrc2, hri]
            exact getD_mid pre _ _ _ j hj)]
        rw [if_pos (by constructor <;> omega)]
        have hIH := ih (s.drop ((runTake 254 s).length + 1))
          (pre ++ (((runTake 254 s).length + 1) :: runTake 254 s)) src size
          (ri + 1 + (runTake 254 s).length)
          (W + (runTake 254 s).length + 1)
          (log ++ dataWrites W (runTake 254 s) ++
            [(W + (runTake 254 s).length, 0)])
          (reads ++ [ri] ++
            (List.range (runTake 254 s).length).map fun j => ri + 1 + j)
          (by omega)
          (by rw [hsrc2]; simp)
          (by simp; omega)
          (by omega)
        refine ⟨?_, ?_⟩
        · rw [hIH.1]
          omega
        · rw [hIH.2]
          conv_rhs => rw [hs2]
          rw [dataWrites_append (runTake 254 s) _ W]
          simp [dataWrites, List.append_assoc]

/-! ## Bounds on the decode loop -/

/-- The decode loop never lets the write cursor pass the read cursor: the
returned length is at most `size` and every destination write lands strictly
below `size`. -/
theorem decodeAux_bound : ∀ (k : Nat) (src : List Nat) (size ri wi : Nat)
    (log : List (Nat × Nat)) (reads : List Nat), size - ri ≤ k →
    wi ≤ ri → ri ≤ size →
    (COBS.decodeAux src size ri wi log reads).ret ≤ size ∧
    ∀ e ∈ (COBS.decodeAux src size ri wi log reads).log,
      e ∈ log ∨ e.1 < size := by
  intro k
  induction k with
  | zero =>
    intro src size ri wi log reads hk hwr hrs
    rw [COBS.decodeAux.eq_def, dif_neg (by omega)]
    exact ⟨by show wi ≤ size; omega, fun e he => Or.inl he⟩
  | succ k ih =>
    intro src size ri wi log reads hk hwr hrs
    rw [COBS.decodeAux.eq_def]
    by_cases h1 : ri < size
    · rw [dif_pos h1]
      by_cases h2 : ri + src.getD ri 0 > size ∧ src.getD ri 0 ≠ 1
      · rw [if_pos h2]
        exact ⟨by show (0 : Nat) ≤ size; omega, fun e he => Or.inl he⟩
      · rw [if_neg h2]
        have h2' : ri + src.getD ri 0 ≤ size ∨ src.getD ri 0 = 1 := by
          rcases not_and_or.mp h2 with h | h
          · exact Or.inl (by omega)
          · exact Or.inr (not_not.mp h)
        have hri2 : ri + 1 + (src.getD ri 0 - 1) ≤ size := by
          rcases h2' with h | h <;> omega
        have hcopy : ∀ e ∈ (List.range (src.getD ri 0 - 1)).map
            (fun j => (wi + j, src.getD (ri + 1 + j) 0)), e.1 < size := by
          intro e he
          simp only [List.mem_map, List.mem_range] at he
          obtain ⟨j, hj, hej⟩ := he
          rw [← hej]
          simp only []
          omega
        by_cases h3 : src.getD ri 0 ≠ 255 ∧
            ri + 1 + (src.getD ri 0 - 1) ≠ size
        · rw [if_pos h3]
          have hres := ih src size (ri + 1 + (src.getD ri 0 - 1))
            (wi + (src.getD ri 0 - 1) + 1)
            (log ++ (List.range (src.getD ri 0 - 1)).map
              (fun j => (wi + j, src.getD (ri + 1 + j) 0)) ++
              [(wi + (src.getD ri 0 - 1), 0)])
            ((reads ++ [ri]) ++ (List.range (src.getD ri 0 - 1)).map
              (fun j => ri + 1 + j))
            (by omega) (by omega) hri2
          refine ⟨hres.1, ?_⟩
          intro e he
          rcases hres.2 e he with h | h
          · simp only [List.mem_append, List.mem_singleton] at h
            rcases h with (h | h) | h
            · exact Or.inl h
            · exact Or.inr (hcopy e h)
            · right
              rw [h]
              simp only []
              omega
          · exact Or.inr h
        · rw [if_neg h3]
          have hres := ih src size (ri + 1 + (src.getD ri 0 - 1))
            (wi + (src.getD ri 0 - 1))
            (log ++ (List.range (src.getD ri 0 - 1)).map
              (fun j => (wi + j, src.getD (ri + 1 + j) 0)))
            ((reads ++ [ri]) ++ (List.range (src.getD ri 0 - 1)).map
              (fun j => ri + 1 + j))
            (by omega) (by omega) hri2
          refine ⟨hres.1, ?_⟩
          intro e he
          rcases hres.2 e he with h | h
          · simp only [List.mem_append] at h
            rcases h with h | h
            · exact Or.inl h
            · exact Or.inr (hcopy e h)
          · exact Or.inr h
    · rw [dif_neg h1]
      exact ⟨by show wi ≤ size; omega, fun e he => Or.inl he⟩

/-- Every source index the decode loop reads is strictly below `size`. -/
theorem decodeAux_reads : ∀ (k : Nat) (src : List Nat) (size ri wi : Nat)
    (log : List (Nat × Nat)) (reads : List Nat), size - ri ≤ k →
    ∀ x ∈ (COBS.decodeAux src size ri wi log reads).reads,
      x ∈ reads ∨ x < size := by
  intro k
  induction k with
  | zero =>
    intro src size ri wi log reads hk x hx
    rw [COBS.decodeAux.eq_def, dif_neg (by omega)] at hx
    exact Or.inl hx
  | succ k ih =>
    intro src size ri wi log reads hk x hx
    rw [COBS.decodeAux.eq_def] at hx
    by_cases h1 : ri < size
    · rw [dif_pos h1] at hx
      by_cases h2 : ri + src.getD ri 0 > size ∧ src.getD ri 0 ≠ 1
      · rw [if_pos h2] at hx
        simp only [List.mem_append, List.mem_singleton] at hx
        rcases hx with h | h
        · exact Or.inl h
        · exact Or.inr (by omega)
      · rw [if_neg h2] at hx
        have h2' : ri + src.getD ri 0 ≤ size ∨ src.getD ri 0 = 1 := by
          rcases not_and_or.mp h2 with h | h
          · exact Or.inl (by omega)
          · exact Or.inr (not_not.mp h)
        have hri2 : ri + 1 + (src.getD ri 0 - 1) ≤ size := by
          rcases h2' with h | h <;> omega
        have hstep : ∀ y ∈ (reads ++ [ri]) ++
            (List.range (src.getD ri 0 - 1)).map (fun j => ri + 1 + j),
            y ∈ reads ∨ y < size := by
          intro y hy
          simp only [List.mem_append, List.mem_singleton, List.mem_map,
            List.mem_range] at hy
          rcases hy with (hy | hy) | hy
          · exact Or.inl hy
          · exact Or.inr (by omega)
          · obtain ⟨j, hj, hyj⟩ := hy
            right
            rcases h2' with h | h <;> omega
        by_cases h3 : src.getD ri 0 ≠ 255 ∧
            ri + 1 + (src.getD ri 0 - 1) ≠ size
        · rw [if_pos h3] at hx
          rcases ih src size _ _ _ _ (by omega) x hx with h | h
          · exact hstep x h
          · exact Or.inr h
        · rw [if_neg h3] at hx
          rcases ih src size _ _ _ _ (by omega) x hx with h | h
          · exact hstep x h
          · exact Or.inr h
    · rw [dif_neg h1] at hx
      exact Or.inl hx

/-- Return-value characterisation of the decode loop: if its scan hits the
validation failure the returned value is 0; otherwise the returned value is
the write cursor plus the number of writes performed. -/
theorem decodeAux_fail : ∀ (k : Nat) (src : List Nat) (size ri wi : Nat)
    (log : List (Nat × Nat)) (reads : List Nat), size - ri ≤ k →
    (COBS.scanFails src size ri = true →
      (COBS.decodeAux src size ri wi log reads).ret = 0) ∧
    (COBS.scanFails src size ri = false →
      ∃ m, (COBS.decodeAux src size ri wi log reads).log = log ++ m ∧
        (COBS.decodeAux src size ri wi log reads).ret = wi + m.length) := by
  intro k
  induction k with
  | zero =>
    intro src size ri wi log reads hk
    rw [COBS.decodeAux.eq_def, dif_neg (by omega),
      COBS.scanFails.eq_def, dif_neg (by omega)]
    exact ⟨fun h => by simp at h, fun _ => ⟨[], by simp, by simp⟩⟩
  | succ k ih =>
    intro src size ri wi log reads hk
    rw [COBS.decodeAux.eq_def, COBS.scanFails.eq_def]
    by_cases h1 : ri < size
    · rw [dif_pos h1, dif_pos h1]
      by_cases h2 : ri + src.getD ri 0 > size ∧ src.getD ri 0 ≠ 1
      · rw [if_pos h2, if_pos h2]
        exact ⟨fun _ => rfl, fun h => by simp at h⟩
      · rw [if_neg h2, if_neg h2]
        by_cases h3 : src.getD ri 0 ≠ 255 ∧
            ri + 1 + (src.getD ri 0 - 1) ≠ size
        · rw [if_pos h3]
          have hres := ih src size (ri + 1 + (src.getD ri 0 - 1))
            (wi + (src.getD ri 0 - 1) + 1)
            (log ++ (List.range (src.getD ri 0 - 1)).map
              (fun j => (wi + j, src.getD (ri + 1 + j) 0)) ++
              [(wi + (src.getD ri 0 - 1), 0)])
            ((reads ++ [ri]) ++ (List.range (src.getD ri 0 - 1)).map
              (fun j => ri + 1 + j))
            (by omega)
          refine ⟨hres.1, ?_⟩
          intro h
          obtain ⟨m, hm1, hm2⟩ := hres.2 h
          refine ⟨(List.range (src.getD ri 0 - 1)).map
            (fun j => (wi + j, src.getD (ri + 1 + j) 0)) ++
            [(wi + (src.getD ri 0 - 1), 0)] ++ m, ?_, ?_⟩
          · rw [hm1]
            simp [List.append_assoc]
          · rw [hm2]
            simp
            omega
        · rw [if_neg h3]
          have hres := ih src size (ri + 1 + (src.getD ri 0 - 1))
            (wi + (src.getD ri 0 - 1))
            (log ++ (List.range (src.getD ri 0 - 1)).map
              (fun j => (wi + j, src.getD (ri + 1 + j) 0)))
            ((reads ++ [ri]) ++ (List.range (src.getD ri 0 - 1)).map
              (fun j => ri + 1 + j))
            (by omega)
          refine ⟨hres.1, ?_⟩
          intro h
          obtain ⟨m, hm1, hm2⟩ := hres.2 h
          refine ⟨(List.range (src.getD ri 0 - 1)).map
            (fun j => (wi + j, src.getD (ri + 1 + j) 0)) ++ m, ?_, ?_⟩
          · rw [hm1]
            simp [List.append_assoc]
          · rw [hm2]
            simp
            omega
    · rw [dif_neg h1, dif_neg h1]
      exact ⟨fun h => by simp at h, fun _ => ⟨[], by simp, by simp⟩⟩

/-! ## Encoder state invariants -/

/-- Wrap-safe invariant of the encoder state: `code` stays in `1..254` at the
top of the loop, every value ever written is in `1..255`, and every
destination index below `write_index` other than the pending `code_index`
has been written. -/
def EncInv (st : COBS.EncState) : Prop :=
  1 ≤ st.code ∧ st.code ≤ 254 ∧
  (∀ e ∈ st.log, 1 ≤ e.2 ∧ e.2 ≤ 255) ∧
  (∀ p, p < st.wi → p ≠ st.ci → p ∈ st.log.map Prod.fst)

theorem encInv_step (st : COBS.EncState) (b : Nat) (hb : b < 256)
    (h : EncInv st) : EncInv (COBS.encByte st b) := by
  obtain ⟨h1, h2, h3, h4⟩ := h
  by_cases hb0 : b = 0
  · subst hb0
    rw [encByte_zero]
    refine ⟨le_refl 1, by show (1 : Nat) ≤ 254; omega, ?_, ?_⟩
    · intro e he
      simp only [List.mem_append, List.mem_singleton] at he
      rcases he with he | he
      · exact h3 e he
      · rw [he]
        exact ⟨h1, by omega⟩
    · intro p hp hpc
      simp only [] at hp hpc
      have hple : (st.wi + 1) % 65536 ≤ st.wi + 1 := Nat.mod_le _ _
      simp only [List.map_append, List.map_cons, List.map_nil,
        List.mem_append, List.mem_cons, List.not_mem_nil, or_false]
      by_cases hpci : p = st.ci
      · tauto
      · have := h4 p (by omega) hpci
        tauto
  · have hc1 : (st.code + 1) % 256 = st.code + 1 :=
      Nat.mod_eq_of_lt (by omega)
    by_cases hfl : st.code = 254
    · rw [encByte_flush st b hb0 hfl]
      refine ⟨le_refl 1, by show (1 : Nat) ≤ 254; omega, ?_, ?_⟩
      · intro e he
        simp only [List.mem_append, List.mem_singleton] at he
        rcases he with (he | he) | he
        · exact h3 e he
        · rw [he]
          exact ⟨by omega, by omega⟩
        · rw [he]
          exact ⟨by omega, by omega⟩
      · intro p hp hpc
        simp only [] at hp hpc
        have hm1 : ((st.wi + 1) % 65536 + 1) % 65536 ≤
            (st.wi + 1) % 65536 + 1 := Nat.mod_le _ _
        have hm2 : (st.wi + 1) % 65536 ≤ st.wi + 1 := Nat.mod_le _ _
        simp only [List.map_append, List.map_cons, List.map_nil,
          List.mem_append, List.mem_cons, List.not_mem_nil, or_false]
        by_cases hpci : p = st.ci
        · tauto
        · by_cases hpwi : p = st.wi
          · tauto
          · have := h4 p (by omega) hpci
            tauto
    · have hne : (st.code + 1) % 256 ≠ 255 := by omega
      have hstep : COBS.encByte st b =
          ⟨(st.wi + 1) % 65536, st.ci, st.code + 1,
            st.log ++ [(st.wi, b)]⟩ := by
        simp only [COBS.encByte, if_neg hb0, hc1]
        rw [if_neg (show ¬ st.code + 1 = 255 by omega)]
      rw [hstep]
      refine ⟨by show 1 ≤ st.code + 1; omega,
        by show st.code + 1 ≤ 254; omega, ?_, ?_⟩
      · intro e he
        simp only [List.mem_append, List.mem_singleton] at he
        rcases he with he | he
        · exact h3 e he
        · rw [he]
          exact ⟨by omega, by omega⟩
      · intro p hp hpc
        simp only [] at hp hpc
        have hple : (st.wi + 1) % 65536 ≤ st.wi + 1 := Nat.mod_le _ _
        simp only [List.map_append, List.map_cons, List.map_nil,
          List.mem_append, List.mem_cons, List.not_mem_nil, or_false]
        by_cases hpwi : p = st.wi
        · tauto
        · have := h4 p (by omega) hpc
          tauto

/-- Generic preservation of an indexed invariant along the encode fold. -/
theorem foldl_encByte_inv (P : Nat → COBS.EncState → Prop) (C : Nat → Prop)
    (hstep : ∀ n st b, C b → P n st → P (n + 1) (COBS.encByte st b)) :
    ∀ (l : List Nat) (n : Nat) (st : COBS.EncState),
      (∀ x ∈ l, C x) → P n st →
      P (n + l.length) (l.foldl COBS.encByte st) := by
  intro l
  induction l with
  | nil =>
    intro n st _ hP
    simpa using hP
  | cons x rest ih =>
    intro n st hC hP
    have h1 := ih (n + 1) (COBS.encByte st x)
      (fun y hy => hC y (List.mem_cons_of_mem _ hy))
      (hstep n st x (hC x (List.mem_cons_self _ _)) hP)
    simp only [List.foldl_cons, List.length_cons]
    have e : n + (rest.length + 1) = n + 1 + rest.length := by omega
    rw [e]
    exact h1

/-- No-overflow invariant of the encoder after consuming `n` input bytes:
`write_index = code_index + code` exactly, the number of forced flushes so
far is `write_index - 1 - n`, and all writes land below `write_index`.
Holds as long as the worst-case encoded size of the whole input fits in the
16-bit range, so that no `% 65536` ever truncates. -/
def EncBounded (n : Nat) (st : COBS.EncState) : Prop :=
  1 ≤ st.code ∧ st.code ≤ 254 ∧ st.wi = st.ci + st.code ∧
  1 + n ≤ st.wi ∧ 254 * (st.wi - 1 - n) + (st.code - 1) ≤ n ∧
  (∀ e ∈ st.log, e.1 < st.wi)

theorem encBounded_step (N n : Nat) (st : COBS.EncState) (b : Nat)
    (hn : n < N) (hN : 1 + N + N / 254 ≤ 65535)
    (h : EncBounded n st) : EncBounded (n + 1) (COBS.encByte st b) := by
  obtain ⟨h1, h2, h3, h4, h5, h6⟩ := h
  have hwb : st.wi ≤ 1 + n + n / 254 := by omega
  have hmono : n / 254 ≤ N / 254 := Nat.div_le_div_right (by omega)
  by_cases hb0 : b = 0
  · subst hb0
    rw [encByte_zero]
    have hm : (st.wi + 1) % 65536 = st.wi + 1 :=
      Nat.mod_eq_of_lt (by omega)
    rw [hm]
    refine ⟨le_refl 1, by show (1 : Nat) ≤ 254; omega,
      by show st.wi + 1 = st.wi + 1; omega,
      by show 1 + (n + 1) ≤ st.wi + 1; omega,
      by show 254 * (st.wi + 1 - 1 - (n + 1)) + (1 - 1) ≤ n + 1; omega, ?_⟩
    intro e he
    simp only [List.mem_append, List.mem_singleton] at he
    show e.1 < st.wi + 1
    rcases he with he | he
    · have := h6 e he
      omega
    · rw [he]
      show st.ci < st.wi + 1
      omega
  · by_cases hfl : st.code = 254
    · rw [encByte_flush st b hb0 hfl]
      have hflush : 254 * (st.wi + 2 - 1 - (n + 1)) ≤ n + 1 := by omega
      have hwb2 : st.wi + 2 ≤ 1 + (n + 1) + (n + 1) / 254 := by omega
      have hm1 : (st.wi + 1) % 65536 = st.wi + 1 :=
        Nat.mod_eq_of_lt (by omega)
      rw [hm1]
      have hm2 : (st.wi + 1 + 1) % 65536 = st.wi + 2 :=
        Nat.mod_eq_of_lt (by omega)
      rw [hm2]
      refine ⟨le_refl 1, by show (1 : Nat) ≤ 254; omega,
        by show st.wi + 2 = st.wi + 1 + 1; omega,
        by show 1 + (n + 1) ≤ st.wi + 2; omega,
        by show 254 * (st.wi + 2 - 1 - (n + 1)) + (1 - 1) ≤ n + 1; omega, ?_⟩
      intro e he
      simp only [List.mem_append, List.mem_singleton] at he
      show e.1 < st.wi + 2
      rcases he with (he | he) | he
      · have := h6 e he
        omega
      · rw [he]
        show st.wi < st.wi + 2
        omega
      · rw [he]
        show st.ci < st.wi + 2
        omega
    · have hc1 : (st.code + 1) % 256 = st.code + 1 :=
        Nat.mod_eq_of_lt (by omega)
      have hstep : COBS.encByte st b =
          ⟨(st.wi + 1) % 65536, st.ci, st.code + 1,
            st.log ++ [(st.wi, b)]⟩ := by
        simp only [COBS.encByte, if_neg hb0, hc1]
        rw [if_neg (show ¬ st.code + 1 = 255 by omega)]
      rw [hstep]
      have hm : (st.wi + 1) % 65536 = st.wi + 1 :=
        Nat.mod_eq_of_lt (by omega)
      rw [hm]
      have g1 : 1 ≤ st.code + 1 := by omega
      have g2 : st.code + 1 ≤ 254 := by omega
      have g3 : st.wi + 1 = st.ci + (st.code + 1) := by omega
      have g4 : 1 + (n + 1) ≤ st.wi + 1 := by omega
      have g5 : 254 * (st.wi + 1 - 1 - (n + 1)) + (st.code + 1 - 1) ≤
          n + 1 := by omega
      refine ⟨g1, g2, g3, g4, g5, ?_⟩
      intro e he
      simp only [List.mem_append, List.mem_singleton] at he
      show e.1 < st.wi + 1
      rcases he with he | he
      · have := h6 e he
        omega
      · rw [he]
        show st.wi < st.wi + 1
        omega

theorem encBounded_fold (N : Nat) (hN : 1 + N + N / 254 ≤ 65535) :
    ∀ (l : List Nat) (n : Nat) (st : COBS.EncState), n + l.length ≤ N →
      EncBounded n st → EncBounded (n + l.length) (l.foldl COBS.encByte st) := by
  intro l
  induction l with
  | nil =>
    intro n st _ hP
    simpa using hP
  | cons x rest ih =>
    intro n st hcap hP
    have h1 := ih (n + 1) (COBS.encByte st x)
      (by simp at hcap; omega)
      (encBounded_step N n st x (by simp at hcap; omega) hN hP)
    simp only [List.foldl_cons, List.length_cons]
    have e : n + (rest.length + 1) = n + 1 + rest.length := by omega
    rw [e]
    exact h1

/-! ## Exact `write_index` traces (with 16-bit wraparound) -/

/-- After `n` non-zero input bytes from the initial state, `write_index` is
`(1 + n + n / 254) mod 2^16` and `code` is `1 + n mod 254`. -/
def NzTrace (n : Nat) (st : COBS.EncState) : Prop :=
  st.wi = (1 + n + n / 254) % 65536 ∧ st.code = 1 + n % 254

theorem nzTrace_step (n : Nat) (st : COBS.EncState) (b : Nat) (hb : b ≠ 0)
    (h : NzTrace n st) : NzTrace (n + 1) (COBS.encByte st b) := by
  obtain ⟨h1, h2⟩ := h
  have hm : n % 254 < 254 := Nat.mod_lt _ (by omega)
  by_cases hfl : n % 254 = 253
  · have hc255 : (st.code + 1) % 256 = 255 := by omega
    have hstep : COBS.encByte st b =
        ⟨((st.wi + 1) % 65536 + 1) % 65536, (st.wi + 1) % 65536, 1,
          (st.log ++ [(st.wi, b)]) ++ [(st.ci, (st.code + 1) % 256)]⟩ := by
      simp only [COBS.encByte, if_neg hb]
      rw [if_pos hc255]
    rw [hstep]
    constructor
    · show ((st.wi + 1) % 65536 + 1) % 65536 =
        (1 + (n + 1) + (n + 1) / 254) % 65536
      omega
    · show (1 : Nat) = 1 + (n + 1) % 254
      omega
  · have hne : ¬ (st.code + 1) % 256 = 255 := by omega
    have hstep : COBS.encByte st b =
        ⟨(st.wi + 1) % 65536, st.ci, (st.code + 1) % 256,
          st.log ++ [(st.wi, b)]⟩ := by
      simp only [COBS.encByte, if_neg hb]
      rw [if_neg hne]
    rw [hstep]
    constructor
    · show (st.wi + 1) % 65536 = (1 + (n + 1) + (n + 1) / 254) % 65536
      omega
    · show (st.code + 1) % 256 = 1 + (n + 1) % 254
      omega

/-- After `n` zero input bytes from any state with `code = 1`, `write_index`
advances by exactly one slot per byte, mod 2^16. -/
def ZeroTrace (n : Nat) (st : COBS.EncState) : Prop :=
  st.wi = (1 + n) % 65536 ∧ st.code = 1

theorem zeroTrace_step (n : Nat) (st : COBS.EncState) (b : Nat) (hb : b = 0)
    (h : ZeroTrace n st) : ZeroTrace (n + 1) (COBS.encByte st b) := by
  obtain ⟨h1, h2⟩ := h
  subst hb
  rw [encByte_zero]
  refine ⟨?_, rfl⟩
  show (st.wi + 1) % 65536 = (1 + (n + 1)) % 65536
  omega

/-! ## Length bound of the functional encoding -/

theorem encF_length_le : ∀ (k : Nat) (s : List Nat), s.length ≤ k →
    (encF s).length ≤ s.length + s.length / 254 + 1 := by
  intro k
  induction k with
  | zero =>
    intro s hlen
    have hs : s = [] := List.length_eq_zero.mp (Nat.le_zero.mp hlen)
    subst hs
    simp [encF_nil]
  | succ k ih =>
    intro s hlen
    have hble := runTake_length_le_budget 254 s
    have hsle := runTake_length_le 254 s
    by_cases h254 : (runTake 254 s).length = 254
    · have hslen : 254 ≤ s.length := by omega
      have hdlen : (s.drop 254).length = s.length - 254 := by
        simp [List.length_drop]
      have h1 : (encF s).length = 255 + (encF (s.drop 254)).length := by
        rw [encF_flush s h254]
        simp [h254]
        omega
      have h2 := ih (s.drop 254) (by omega)
      omega
    · by_cases hend : s.length ≤ (runTake 254 s).length
      · have h1 : (encF s).length = (runTake 254 s).length + 1 := by
          rw [encF_last s h254 hend]
          simp
        omega
      · have hdlen : (s.drop ((runTake 254 s).length + 1)).length =
            s.length - ((runTake 254 s).length + 1) := by
          simp [List.length_drop]
        have h1 : (encF s).length = (runTake 254 s).length + 1 +
            (encF (s.drop ((runTake 254 s).length + 1))).length := by
          rw [encF_zero s h254 hend]
          simp
          omega
        have h2 := ih (s.drop ((runTake 254 s).length + 1)) (by omega)
        omega

/-! ## Top-level facts about `COBS.encode` and `COBS.decode` -/

/-- When the worst-case encoded size fits the 16-bit range, the returned
length is bounded by `total + total/254 + 1` and every destination write
lands strictly below the returned length. -/
theorem encode_bounded (h b t : List Nat)
    (hcap : (h ++ b ++ t).length + (h ++ b ++ t).length / 254 + 1 ≤ 65535) :
    (COBS.encode h b t).1 ≤
      (h ++ b ++ t).length + (h ++ b ++ t).length / 254 + 1 ∧
    ∀ e ∈ (COBS.encode h b t).2, e.1 < (COBS.encode h b t).1 := by
  have hinit : EncBounded 0 COBS.encInit := by
    refine ⟨le_refl 1, by show (1 : Nat) ≤ 254; omega, rfl, le_refl 1,
      by show 254 * (1 - 1 - 0) + (1 - 1) ≤ 0; omega, ?_⟩
    intro e he
    simp [COBS.encInit] at he
  have hfin := encBounded_fold (h ++ b ++ t).length (by omega)
    (h ++ b ++ t) 0 COBS.encInit (by omega) hinit
  rw [Nat.zero_add] at hfin
  obtain ⟨g1, g2, g3, g4, g5, g6⟩ := hfin
  rw [encode_foldl]
  constructor
  · show (List.foldl COBS.encByte COBS.encInit (h ++ b ++ t)).wi ≤ _
    omega
  · intro e he
    simp only [List.mem_append, List.mem_singleton] at he
    show e.1 < (List.foldl COBS.encByte COBS.encInit (h ++ b ++ t)).wi
    rcases he with he | he
    · exact g6 e he
    · rw [he]
      show (List.foldl COBS.encByte COBS.encInit (h ++ b ++ t)).ci < _
      omega

/-- Exact value of `getEncodedBufferSize` when nothing overflows. -/
theorem gEBS_exact (hs bs ts : Nat)
    (hcap : hs + bs + ts + (hs + bs + ts) / 254 + 1 ≤ 65535) :
    COBS.getEncodedBufferSize hs bs ts =
      hs + bs + ts + (hs + bs + ts) / 254 + 1 := by
  have h1 : (hs + bs + ts) % 65536 = hs + bs + ts :=
    Nat.mod_eq_of_lt (by omega)
  show ((hs + bs + ts) % 65536 + (hs + bs + ts) % 65536 / 254 + 1) %
    65536 = hs + bs + ts + (hs + bs + ts) / 254 + 1
  rw [h1]
  exact Nat.mod_eq_of_lt (by omega)

/-- Returned length on an input consisting only of non-zero bytes,
including 16-bit wraparound. -/
theorem encode_ret_nonzero (h b t : List Nat)
    (hnz : ∀ x ∈ h ++ b ++ t, x ≠ 0) :
    (COBS.encode h b t).1 =
      (1 + (h ++ b ++ t).length + (h ++ b ++ t).length / 254) % 65536 := by
  have hinit : NzTrace 0 COBS.encInit := by
    constructor
    · show (1 : Nat) = (1 + 0 + 0 / 254) % 65536
      norm_num
    · rfl
  have hfin := foldl_encByte_inv NzTrace (fun x => x ≠ 0)
    (fun n st x hx hP => nzTrace_step n st x hx hP)
    (h ++ b ++ t) 0 COBS.encInit hnz hinit
  rw [Nat.zero_add] at hfin
  rw [encode_foldl]
  exact hfin.1

/-- Returned length on an all-zero body, including 16-bit wraparound. -/
theorem encode_ret_zero (n : Nat) :
    (COBS.encode [] (List.replicate n 0) []).1 = (1 + n) % 65536 := by
  have hinit : ZeroTrace 0 COBS.encInit := by
    constructor
    · show (1 : Nat) = (1 + 0) % 65536
      norm_num
    · rfl
  have hfin := foldl_encByte_inv ZeroTrace (fun x => x = 0)
    (fun n st x hx hP => zeroTrace_step n st x hx hP)
    ([] ++ List.replicate n 0 ++ []) 0 COBS.encInit
    (by simp) hinit
  rw [Nat.zero_add] at hfin
  rw [encode_foldl]
  have hl : ([] ++ List.replicate n 0 ++ []).length = n := by simp
  rw [hl] at hfin
  exact hfin.1

/-- Encoded destination contents never contain a byte outside `1..255`. -/
theorem encode_values (h b t : List Nat) (d0 : Nat → Nat)
    (hbytes : ∀ x ∈ h ++ b ++ t, x < 256) :
    ∀ i, i < (COBS.encode h b t).1 →
      1 ≤ applyLog d0 (COBS.encode h b t).2 i ∧
      applyLog d0 (COBS.encode h b t).2 i ≤ 255 := by
  have hinit : EncInv COBS.encInit := by
    refine ⟨le_refl 1, by show (1 : Nat) ≤ 254; omega, ?_, ?_⟩
    · intro e he
      simp [COBS.encInit] at he
    · intro p hp hpc
      exfalso
      have hp1 : p < 1 := hp
      have hp0 : p = 0 := by omega
      exact hpc hp0
  have hfin := foldl_encByte_inv (fun _ st => EncInv st) (fun x => x < 256)
    (fun n st x hx hP => encInv_step st x hx hP)
    (h ++ b ++ t) 0 COBS.encInit hbytes hinit
  obtain ⟨g1, g2, g3, g4⟩ := hfin
  rw [encode_foldl]
  intro i hi
  have hi' : i < (List.foldl COBS.encByte COBS.encInit (h ++ b ++ t)).wi := hi
  have hcov : i ∈ (((List.foldl COBS.encByte COBS.encInit
      (h ++ b ++ t)).log ++
      [((List.foldl COBS.encByte COBS.encInit (h ++ b ++ t)).ci,
        (List.foldl COBS.encByte COBS.encInit (h ++ b ++ t)).code)]).map
      Prod.fst) := by
    by_cases hpci : i = (List.foldl COBS.encByte COBS.encInit
        (h ++ b ++ t)).ci
    · simp [hpci]
    · have := g4 i hi' hpci
      simp only [List.map_append, List.mem_append]
      exact Or.inl this
  have hmem := applyLog_mem _ d0 i hcov
  rcases List.mem_append.mp hmem with hx | hx
  · exact g3 _ hx
  · simp only [List.mem_singleton] at hx
    have := congrArg Prod.snd hx
    simp only [] at this
    rw [this]
    exact ⟨g1, by omega⟩

/-- `COBS::decode` never expands: the returned length is at most `size` and
every destination write lands strictly below `size`. -/
theorem decode_bounds (src : List Nat) (size : Nat) :
    (COBS.decode src size).ret ≤ size ∧
    ∀ e ∈ (COBS.decode src size).log, e.1 < size := by
  have h := decodeAux_bound size src size 0 0 [] [] (by omega) (by omega)
    (by omega)
  refine ⟨h.1, ?_⟩
  intro e he
  rcases h.2 e he with hc | hc
  · simp at hc
  · exact hc

/-- Every source index `COBS::decode` reads is strictly below `size`. -/
theorem decode_reads_lt (src : List Nat) (size : Nat) :
    ∀ x ∈ (COBS.decode src size).reads, x < size := by
  intro x hx
  rcases decodeAux_reads size src size 0 0 [] [] (by omega) x hx with h | h
  · simp at h
  · exact h

/-- `COBS::decode` returns 0 exactly when its scan hits the validation
failure or when it wrote nothing at all. -/
theorem decode_ret_zero_char (src : List Nat) (size : Nat) :
    (COBS.decode src size).ret = 0 ↔
      (COBS.scanFails src size 0 = true ∨ (COBS.decode src size).log = []) := by
  have h := decodeAux_fail size src size 0 0 [] [] (by omega)
  cases hscan : COBS.scanFails src size 0 with
  | true =>
    have h0 := h.1 hscan
    unfold COBS.decode
    rw [h0]
    simp
  | false =>
    obtain ⟨m, hm1, hm2⟩ := h.2 hscan
    unfold COBS.decode
    rw [hm1, hm2]
    simp only [List.nil_append, Nat.zero_add]
    constructor
    · intro hlen
      exact Or.inr (List.length_eq_zero.mp hlen)
    · intro hm
      rcases hm with hm | hm
      · simp at hm
      · rw [hm]
        rfl

/-- Full round trip: when the worst-case encoded size fits in 16 bits,
decoding the encoded destination contents (any initial destination `d0`)
returns the length of the logical input and writes back exactly its bytes,
in order, at indices `0, 1, 2, ...`. -/
theorem decode_encode_roundtrip (h b t : List Nat) (d0 : Nat → Nat)
    (hcap : (h ++ b ++ t).length + (h ++ b ++ t).length / 254 + 1 ≤ 65535) :
    (COBS.decode
        ((List.range (COBS.encode h b t).1).map
          (applyLog d0 (COBS.encode h b t).2))
        (COBS.encode h b t).1).ret = (h ++ b ++ t).length ∧
    (COBS.decode
        ((List.range (COBS.encode h b t).1).map
          (applyLog d0 (COBS.encode h b t).2))
        (COBS.encode h b t).1).log = dataWrites 0 (h ++ b ++ t) := by
  have hlenF : (encF (h ++ b ++ t)).length ≤ 65535 := by
    have := encF_length_le (h ++ b ++ t).length (h ++ b ++ t) le_rfl
    omega
  have henc := encode_eq_encF h b t hlenF
  rw [henc]
  simp only []
  rw [encodedList_eq_encF (h ++ b ++ t) d0]
  have hdec := decode_encF (h ++ b ++ t).length (h ++ b ++ t) [] 
    (encF (h ++ b ++ t)) (encF (h ++ b ++ t)).length 0 0 [] []
    le_rfl (by simp) rfl (by simp)
  unfold COBS.decode
  exact ⟨by rw [hdec.1]; omega, by rw [hdec.2]; simp⟩

/-! ## Claim theorems -/

/-- C1 (counterexample to the claim as stated): for `S` the 65535-byte
all-ones sequence (length ≤ 65535 as the claim allows), decoding the encoded
output does not return `len(S)`: the encoder's 16-bit `write_index` wraps
(the true encoded size is 65794), it returns 258, and decode of a 258-byte
buffer can return at most 258. -/
theorem C1_counterexample :
    ¬ ((COBS.decode
        ((List.range (COBS.encode [] (List.replicate 65535 1) []).1).map
          (applyLog (fun _ => 0) (COBS.encode [] (List.replicate 65535 1) []).2))
        (COBS.encode [] (List.replicate 65535 1) []).1).ret =
      (List.replicate 65535 (1 : Nat)).length) := by
  intro hcontra
  have hret : (COBS.encode [] (List.replicate 65535 1) []).1 = 258 := by
    rw [encode_ret_nonzero [] (List.replicate 65535 1) []
      (by
        intro x hx
        simp only [List.nil_append, List.append_nil,
          List.mem_replicate] at hx
        omega)]
    simp only [List.nil_append, List.append_nil, List.length_replicate]
  have hle := (decode_bounds
    ((List.range (COBS.encode [] (List.replicate 65535 1) []).1).map
      (applyLog (fun _ => 0) (COBS.encode [] (List.replicate 65535 1) []).2))
    (COBS.encode [] (List.replicate 65535 1) []).1).1
  rw [hret] at hle hcontra
  rw [List.length_replicate] at hcontra
  omega

/-- C1 (amended): round trip holds for every byte sequence `S` and every
header/body/trailer split of it, provided the worst-case encoded size
`len(S) + len(S)/254 + 1` fits the 16-bit index range (≤ 65535, i.e.
`len(S) ≤ 65277`): decoding the encoded destination contents returns
`len(S)` and writes exactly the bytes of `S` at indices `0, 1, 2, ...`. -/
theorem C1_roundtrip (h b t : List Nat) (d0 : Nat → Nat)
    (hbytes : ∀ x ∈ h ++ b ++ t, x < 256)
    (hcap : (h ++ b ++ t).length + (h ++ b ++ t).length / 254 + 1 ≤ 65535) :
    (COBS.decode
        ((List.range (COBS.encode h b t).1).map
          (applyLog d0 (COBS.encode h b t).2))
        (COBS.encode h b t).1).ret = (h ++ b ++ t).length ∧
    (COBS.decode
        ((List.range (COBS.encode h b t).1).map
          (applyLog d0 (COBS.encode h b t).2))
        (COBS.encode h b t).1).log = dataWrites 0 (h ++ b ++ t) :=
  decode_encode_roundtrip h b t d0 hcap

/-- C1 witness: the amended round trip at the concrete split
`header = [1]`, `body = [0]`, `trailer = [2]`. -/
theorem C1_roundtrip_witness :
    (∀ x ∈ ([1] ++ [0] ++ [2] : List Nat), x < 256) ∧
    (([1] ++ [0] ++ [2] : List Nat).length +
      ([1] ++ [0] ++ [2] : List Nat).length / 254 + 1 ≤ 65535) ∧
    ((COBS.decode
        ((List.range (COBS.encode [1] [0] [2]).1).map
          (applyLog (fun _ => 0) (COBS.encode [1] [0] [2]).2))
        (COBS.encode [1] [0] [2]).1).ret =
      ([1] ++ [0] ++ [2] : List Nat).length ∧
    (COBS.decode
        ((List.range (COBS.encode [1] [0] [2]).1).map
          (applyLog (fun _ => 0) (COBS.encode [1] [0] [2]).2))
        (COBS.encode [1] [0] [2]).1).log =
      dataWrites 0 ([1] ++ [0] ++ [2])) :=
  ⟨by decide, by decide,
    C1_roundtrip [1] [0] [2] (fun _ => 0) (by decide) (by decide)⟩

/-- C2 (confirmed): for every input bytes (any lengths) and any initial
destination contents, every byte of the encoded output — the first
`encodedLen` destination cells after `encode` returns — is in `0x01..0xFF`,
in particular non-zero. -/
theorem C2_no_zero_bytes (h b t : List Nat) (d0 : Nat → Nat)
    (hbytes : ∀ x ∈ h ++ b ++ t, x < 256) :
    ∀ i, i < (COBS.encode h b t).1 →
      1 ≤ applyLog d0 (COBS.encode h b t).2 i ∧
      applyLog d0 (COBS.encode h b t).2 i ≤ 255 :=
  encode_values h b t d0 hbytes

/-- C2 witness: the encoded output of `([1], [0], [2])` at index 0. -/
theorem C2_no_zero_bytes_witness :
    (∀ x ∈ ([1] ++ [0] ++ [2] : List Nat), x < 256) ∧
    (0 < (COBS.encode [1] [0] [2]).1) ∧
    (1 ≤ applyLog (fun _ => 0) (COBS.encode [1] [0] [2]).2 0 ∧
      applyLog (fun _ => 0) (COBS.encode [1] [0] [2]).2 0 ≤ 255) :=
  ⟨by decide, by decide,
    C2_no_zero_bytes [1] [0] [2] (fun _ => 0) (by decide) 0 (by decide)⟩

/-- C3 (counterexample to the claim as stated): for the single-segment body
of 65534 zero bytes, `encode` returns 65535 (one slot per zero plus the
leading code slot) while `getEncodedBufferSize` wraps mod 2^16 to 257, so
the returned length is not bounded by `getEncodedBufferSize`. -/
theorem C3_counterexample :
    ¬ ((COBS.encode [] (List.replicate 65534 0) []).1 ≤
      COBS.getEncodedBufferSize ([] : List Nat).length
        (List.replicate 65534 (0 : Nat)).length ([] : List Nat).length) := by
  intro hcontra
  have h1 : (COBS.encode [] (List.replicate 65534 0) []).1 = 65535 := by
    rw [encode_ret_zero 65534]
  simp only [List.length_nil, List.length_replicate] at hcontra
  rw [h1] at hcontra
  have h2 : COBS.getEncodedBufferSize 0 65534 0 = 257 := by decide
  omega

/-- C3 (amended): when the worst-case encoded size
`total + total/254 + 1` fits the 16-bit range, the length returned by
`encode` is at most `getEncodedBufferSize(headerSize, bodySize, trailerSize)`
and every destination index written is strictly below that bound; moreover
on inputs consisting entirely of non-zero bytes with total length
0, 1, 253, 254, 255 or 508 the returned length equals
`getEncodedBufferSize` exactly. -/
theorem C3_size_bound (h b t : List Nat)
    (hcap : (h ++ b ++ t).length + (h ++ b ++ t).length / 254 + 1 ≤ 65535) :
    (COBS.encode h b t).1 ≤
      COBS.getEncodedBufferSize h.length b.length t.length ∧
    (∀ e ∈ (COBS.encode h b t).2,
      e.1 < COBS.getEncodedBufferSize h.length b.length t.length) ∧
    ((∀ x ∈ h ++ b ++ t, x ≠ 0) →
      ((h ++ b ++ t).length = 0 ∨ (h ++ b ++ t).length = 1 ∨
       (h ++ b ++ t).length = 253 ∨ (h ++ b ++ t).length = 254 ∨
       (h ++ b ++ t).length = 255 ∨ (h ++ b ++ t).length = 508) →
      (COBS.encode h b t).1 =
        COBS.getEncodedBufferSize h.length b.length t.length) := by
  have hlen : (h ++ b ++ t).length = h.length + b.length + t.length := by
    rw [List.length_append, List.length_append]
  have hg : COBS.getEncodedBufferSize h.length b.length t.length =
      (h ++ b ++ t).length + (h ++ b ++ t).length / 254 + 1 := by
    rw [gEBS_exact h.length b.length t.length (by omega)]
    omega
  have hb := encode_bounded h b t hcap
  refine ⟨by rw [hg]; exact hb.1, ?_, ?_⟩
  · intro e he
    have h1 := hb.2 e he
    rw [hg]
    omega
  · intro hnz _
    rw [encode_ret_nonzero h b t hnz, hg]
    have e1 : (h ++ b ++ t).length + (h ++ b ++ t).length / 254 + 1 =
        1 + (h ++ b ++ t).length + (h ++ b ++ t).length / 254 := by omega
    rw [e1]
    exact Nat.mod_eq_of_lt (by omega)

/-- C3 witness: the amended bound at the concrete input
`([1], [], [])` (total length 1, one of the listed exact-equality lengths),
checking the bound, one concrete write, and the exact equality. -/
theorem C3_size_bound_witness :
    (([1] ++ [] ++ [] : List Nat).length +
      ([1] ++ [] ++ [] : List Nat).length / 254 + 1 ≤ 65535) ∧
    ((COBS.encode [1] [] []).1 ≤
      COBS.getEncodedBufferSize ([1] : List Nat).length
        ([] : List Nat).length ([] : List Nat).length ∧
    (∀ e ∈ (COBS.encode [1] [] []).2,
      e.1 < COBS.getEncodedBufferSize ([1] : List Nat).length
        ([] : List Nat).length ([] : List Nat).length) ∧
    ((∀ x ∈ ([1] ++ [] ++ [] : List Nat), x ≠ 0) →
      (([1] ++ [] ++ [] : List Nat).length = 0 ∨
       ([1] ++ [] ++ [] : List Nat).length = 1 ∨
       ([1] ++ [] ++ [] : List Nat).length = 253 ∨
       ([1] ++ [] ++ [] : List Nat).length = 254 ∨
       ([1] ++ [] ++ [] : List Nat).length = 255 ∨
       ([1] ++ [] ++ [] : List Nat).length = 508) →
      (COBS.encode [1] [] []).1 =
        COBS.getEncodedBufferSize ([1] : List Nat).length
          ([] : List Nat).length ([] : List Nat).length)) :=
  ⟨by decide, C3_size_bound [1] [] [] (by decide)⟩

/-- C4 (counterexample to the claim as stated): `decode([1], 1)` returns 0
although its scan never encounters a code byte `c` at position `r` with
`r + c > size` and `c ≠ 1` — returning 0 is not equivalent to hitting the
validation failure. -/
theorem C4_counterexample :
    (COBS.decode [1] 1).ret = 0 ∧ COBS.scanFails [1] 1 0 = false := by
  constructor
  · rw [decode_eval]
    decide
  · simp [COBS.scanFails]

/-- C4 (amended): `decode` returns 0 iff its scan encounters a code byte `c`
at read position `r` with `r + c > size` and `c ≠ 1` (a code byte of value
exactly 1 is never flagged, as in `scanFails`), or the decoded output is
empty (no destination write was performed); in particular
`decode([5, 1, 2], 3)` returns 0. -/
theorem C4_ret_char :
    (∀ (src : List Nat) (size : Nat),
      (COBS.decode src size).ret = 0 ↔
        (COBS.scanFails src size 0 = true ∨
          (COBS.decode src size).log = [])) ∧
    (COBS.decode [5, 1, 2] 3).ret = 0 := by
  refine ⟨fun src size => decode_ret_zero_char src size, ?_⟩
  rw [decode_eval]
  decide

/-- C5 (confirmed): the three-segment `encode` produces exactly the same
returned length and the same destination writes as `encode` applied to the
concatenated buffer passed as the body with empty header and trailer. -/
theorem C5_segment_concat (h b t : List Nat) :
    COBS.encode h b t = COBS.encode [] (h ++ b ++ t) [] := by
  rw [encode_foldl, encode_foldl]
  simp

/-- C6 (confirmed): `getEncodedBufferSize` computes
`total + total/254 + 1` in 16-bit arithmetic, where
`total = (headerSize + sourceSize + trailerSize) mod 2^16`; when the exact
value fits 16 bits it equals `total + total/254 + 1` exactly. -/
theorem C6_buffer_size (hs bs ts : Nat) :
    COBS.getEncodedBufferSize hs bs ts =
      ((hs + bs + ts) % 65536 + ((hs + bs + ts) % 65536) / 254 + 1) %
        65536 ∧
    (hs + bs + ts + (hs + bs + ts) / 254 + 1 ≤ 65535 →
      COBS.getEncodedBufferSize hs bs ts =
        hs + bs + ts + (hs + bs + ts) / 254 + 1) :=
  ⟨rfl, fun hcap => gEBS_exact hs bs ts hcap⟩

/-- C6 witness: the sizing formula evaluated exactly at `(1, 2, 3)`. -/
theorem C6_buffer_size_witness :
    (1 + 2 + 3 + (1 + 2 + 3) / 254 + 1 ≤ 65535) ∧
    COBS.getEncodedBufferSize 1 2 3 = 1 + 2 + 3 + (1 + 2 + 3) / 254 + 1 :=
  ⟨by decide, (C6_buffer_size 1 2 3).2 (by decide)⟩

/-- C7 (confirmed): decoding never expands — for every source buffer and
size, the returned length is at most `size` and every destination index
written is strictly below `size`, so a destination of `size` bytes always
suffices. -/
theorem C7_never_expands (src : List Nat) (size : Nat) :
    (COBS.decode src size).ret ≤ size ∧
    ∀ e ∈ (COBS.decode src size).log, e.1 < size :=
  decode_bounds src size

/-- C7 witness: decode of `[2, 7]` with size 2 — the returned length is
bounded by 2 and the concrete write `(0, 7)` lands below 2. -/
theorem C7_never_expands_witness :
    ((COBS.decode [2, 7] 2).ret ≤ 2) ∧
    ((0, 7) ∈ (COBS.decode [2, 7] 2).log ∧ (0 : Nat) < 2) :=
  ⟨(C7_never_expands [2, 7] 2).1,
    ⟨by rw [decode_eval]; decide,
      (C7_never_expands [2, 7] 2).2 (0, 7) (by rw [decode_eval]; decide)⟩⟩

/-- C8 (confirmed): encoding the all-empty input returns length 1 and writes
the value 1 at destination index 0; `decode([1], 1)` returns 0. -/
theorem C8_empty_input :
    (COBS.encode [] [] []).1 = 1 ∧ (COBS.encode [] [] []).2 = [(0, 1)] ∧
    (COBS.decode [1] 1).ret = 0 :=
  ⟨rfl, rfl, by rw [decode_eval]; decide⟩

/-- C9 (counterexample to the claim as stated): there is no malformed input
on which `decode` reads a source index at or beyond `size` — the per-run
validation together with the `code = 1` exemption does guard every byte the
copy loop reads. -/
theorem C9_counterexample :
    ¬ ∃ (src : List Nat) (size x : Nat),
      x ∈ (COBS.decode src size).reads ∧ size ≤ x := by
  rintro ⟨src, size, x, hx, hsz⟩
  have := decode_reads_lt src size x hx
  omega

/-- C9 (amended): for every source buffer and size — malformed inputs
included — every source index `decode` reads (the code byte of each run and
every byte the interior copy loop reads) is strictly below `size`. -/
theorem C9_reads_guarded (src : List Nat) (size : Nat) :
    ∀ x ∈ (COBS.decode src size).reads, x < size :=
  decode_reads_lt src size

/-- C9 witness: decoding `[2, 7]` with size 2 reads index 1 in the copy
loop, and that read is below the size. -/
theorem C9_reads_guarded_witness :
    (1 ∈ (COBS.decode [2, 7] 2).reads) ∧ (1 : Nat) < 2 :=
  ⟨by rw [decode_eval]; decide,
    C9_reads_guarded [2, 7] 2 1 (by rw [decode_eval]; decide)⟩

/-- C10 (confirmed): the `decode` loop terminates within `size - read_index`
iterations — each iteration advances `read_index` by at least one — so the
fueled loop with that much fuel computes exactly the loop's result. -/
theorem C10_terminates (src : List Nat) (size ri wi : Nat)
    (log : List (Nat × Nat)) (reads : List Nat) (fuel : Nat)
    (hfuel : size - ri ≤ fuel) :
    COBS.decodeFuelAux fuel src size ri wi log reads =
      COBS.decodeAux src size ri wi log reads :=
  decodeFuelAux_eq fuel src size ri wi log reads hfuel

/-- C10 witness: with fuel 2 the fueled loop already computes
`decode [1, 1] 2` (an input whose code bytes include a zero-length run). -/
theorem C10_terminates_witness :
    (2 - 0 ≤ 2) ∧
    COBS.decodeFuelAux 2 [1, 1] 2 0 0 [] [] =
      COBS.decodeAux [1, 1] 2 0 0 [] [] :=
  ⟨by decide, C10_terminates [1, 1] 2 0 0 [] [] 2 (by decide)⟩
